import Mathlib

/-! bitcoin-price-streamer: ring-buffer price storage and subscriber broadcast.

A shallow embedding of `internal/models/price.go`, `internal/storage/storage.go`,
`internal/utils/env.go` and `internal/service/price_service.go`.

Conventions of the embedding.

* Go `int` values are `Int`.  Every index that the code computes is bounded by twice the
  length of an allocated slice, so no 64-bit wrap-around can occur and `Int` arithmetic is
  exact.
* A run-time panic (slice index out of range, integer division by zero, `make` with a
  negative length, `close` of a closed channel, send on a closed channel) is the result
  `none`; a normal return is `some`.
* Mutexes and the logger have no effect on the sequential behaviour and are left out.
* `time.Time` is an instant on the integer time line, counted in nanoseconds from the zero
  `time.Time` (which is `0`), and `a.After(b)` is `b < a`.  The `float64` price is only ever carried, never computed on; it
  is represented by an integer code of its value.
-/

/-! ## Go primitives -/

/-- Go `a % b` on `int`: the remainder of truncated division; a zero divisor panics. -/
def goMod (a b : Int) : Option Int :=
  if b = 0 then none else some (Int.tmod a b)

/-- Go `make([]T, n)`: a slice of `n` zero values; a negative length panics. -/
def makeSlice {α : Type} (n : Int) (zero : α) : Option (List α) :=
  if n < 0 then none else some (List.replicate n.toNat zero)

/-- Go `xs[i]` as a value: panics unless `0 <= i < len(xs)`. -/
def sliceGet {α : Type} (xs : List α) (i : Int) : Option α :=
  if 0 ≤ i ∧ i < (xs.length : Int) then xs[i.toNat]? else none

/-- Go `xs[i] = v`: panics unless `0 <= i < len(xs)`. -/
def sliceSet {α : Type} (xs : List α) (i : Int) (v : α) : Option (List α) :=
  if 0 ≤ i ∧ i < (xs.length : Int) then some (xs.set i.toNat v) else none

/-! ## internal/models/price.go -/

/-- One Bitcoin price update (`models.PriceUpdate`). -/
structure PriceUpdate where
  Timestamp : Int
  Price : Int
  Symbol : String
  Name : String
deriving DecidableEq, Repr

/-- The zero value `models.PriceUpdate{}`. -/
def PriceUpdate.zero : PriceUpdate :=
  { Timestamp := 0, Price := 0, Symbol := "", Name := "" }

/-- `t.After(u)` of package `time`. -/
def timeAfter (t u : Int) : Bool :=
  decide (u < t)

/-! ## internal/storage/storage.go -/

/-- The ring buffer of price updates (`storage.PriceStorage`). -/
structure PriceStorage where
  updates : List PriceUpdate
  capacity : Int
  head : Int
  tail : Int
  size : Int
deriving DecidableEq, Repr

/-- `NewPriceStorage(ctx, capacity, logger)`: `head`, `tail` and `size` are left at zero. -/
def NewPriceStorage (capacity : Int) : Option PriceStorage := do
  let updates ← makeSlice capacity PriceUpdate.zero
  pure { updates := updates, capacity := capacity, head := 0, tail := 0, size := 0 }

/-- `(*PriceStorage).Add`. -/
def PriceStorage.Add (ps : PriceStorage) (update : PriceUpdate) : Option PriceStorage := do
  let updates ← sliceSet ps.updates ps.head update
  let head ← goMod (ps.head + 1) ps.capacity
  if ps.size < ps.capacity then
    pure { ps with updates := updates, head := head, size := ps.size + 1 }
  else
    let tail ← goMod (ps.tail + 1) ps.capacity
    pure { ps with updates := updates, head := head, tail := tail }

/-- The loop of `GetUpdatesSince`: `n` iterations remain, `i` is the loop variable and
`out` the slice appended to so far. -/
def PriceStorage.GetUpdatesSince.loop (ps : PriceStorage) (since : Int) :
    Nat → Int → List PriceUpdate → Option (List PriceUpdate)
  | 0, _, out => some out
  | n + 1, i, out => do
    let idx ← goMod (ps.tail + i) ps.capacity
    let update ← sliceGet ps.updates idx
    if timeAfter update.Timestamp since then
      PriceStorage.GetUpdatesSince.loop ps since n (i + 1) (out ++ [update])
    else
      PriceStorage.GetUpdatesSince.loop ps since n (i + 1) out

/-- `(*PriceStorage).GetUpdatesSince`: the loop runs for `i = 0, ..., size - 1`. -/
def PriceStorage.GetUpdatesSince (ps : PriceStorage) (since : Int) :
    Option (List PriceUpdate) :=
  PriceStorage.GetUpdatesSince.loop ps since ps.size.toNat 0 []

/-- The loop of `GetAllUpdates`: `n` iterations remain, `i` is the loop variable and
`out` the result slice being filled. -/
def PriceStorage.GetAllUpdates.loop (ps : PriceStorage) :
    Nat → Int → List PriceUpdate → Option (List PriceUpdate)
  | 0, _, out => some out
  | n + 1, i, out => do
    let idx ← goMod (ps.tail + i) ps.capacity
    let update ← sliceGet ps.updates idx
    let out ← sliceSet out i update
    PriceStorage.GetAllUpdates.loop ps n (i + 1) out

/-- `(*PriceStorage).GetAllUpdates`: a slice of length `size` is made and filled. -/
def PriceStorage.GetAllUpdates (ps : PriceStorage) : Option (List PriceUpdate) := do
  let out ← makeSlice ps.size PriceUpdate.zero
  PriceStorage.GetAllUpdates.loop ps ps.size.toNat 0 out

/-- `(*PriceStorage).GetLatest`. -/
def PriceStorage.GetLatest (ps : PriceStorage) : Option (PriceUpdate × Bool) :=
  if ps.size = 0 then
    some (PriceUpdate.zero, false)
  else do
    let idx ← goMod (ps.head - 1 + ps.capacity) ps.capacity
    let latest ← sliceGet ps.updates idx
    pure (latest, true)

/-- A run of `Add` calls, one per sample, in list order. -/
def PriceStorage.AddAll (ps : PriceStorage) : List PriceUpdate → Option PriceStorage
  | [] => some ps
  | u :: us => (ps.Add u).bind (fun ps' => ps'.AddAll us)

/-- A fresh store of the given capacity followed by one `Add` per sample. -/
def storeAfter (capacity : Int) (samples : List PriceUpdate) : Option PriceStorage :=
  (NewPriceStorage capacity).bind (fun ps => ps.AddAll samples)

/-- The store `ps` of capacity `C` holds the history `hist` of all samples added so far:
the fields are the ones `hist.length` Adds produce, and the slot `k % C` holds the `k`-th
sample for each of the last `C` positions `k` of the history. -/
structure PriceStorage.Holds (C : Nat) (hist : List PriceUpdate) (ps : PriceStorage) :
    Prop where
  cpos : 0 < C
  cap : ps.capacity = (C : Int)
  len : ps.updates.length = C
  head : ps.head = ((hist.length % C : Nat) : Int)
  size : ps.size = ((min hist.length C : Nat) : Int)
  tail : ps.tail = (((hist.length - C) % C : Nat) : Int)
  slot : ∀ k, hist.length - C ≤ k → k < hist.length → ps.updates[k % C]? = hist[k]?

/-- A store the program can reach: built by `NewPriceStorage` with a capacity of at least 1
and then changed by `Add` calls only (the queries do not change the store). -/
def PriceStorage.Reachable (ps : PriceStorage) : Prop :=
  ∃ (C : Int) (xs : List PriceUpdate), 1 ≤ C ∧ storeAfter C xs = some ps

/-- A sample with the given timestamp and price code, for the concrete scenarios. -/
def btc (timestamp price : Int) : PriceUpdate :=
  { Timestamp := timestamp, Price := price, Symbol := "BTC", Name := "Bitcoin" }

/-! ## internal/utils/env.go -/

/-- The value of one decimal digit byte, if it is one. -/
def digitValue (c : Char) : Option Nat :=
  if '0' ≤ c ∧ c ≤ '9' then some (c.toNat - '0'.toNat) else none

/-- The value of a run of decimal digits, most significant first, on top of `acc`. -/
def decimalValue (acc : Nat) : List Char → Option Nat
  | [] => some acc
  | c :: cs => (digitValue c).bind (fun d => decimalValue (acc * 10 + d) cs)

/-- Go `strconv.Atoi` on a 64-bit platform: an optional sign, then one or more decimal
digits, the value within the `int` range; anything else is an error (`none`). -/
def strconvAtoi (s : String) : Option Int :=
  let signed : Bool × List Char :=
    match s.toList with
    | '-' :: ds => (true, ds)
    | '+' :: ds => (false, ds)
    | ds => (false, ds)
  if signed.2 = [] then none
  else
    (decimalValue 0 signed.2).bind (fun n =>
      if signed.1 then (if n ≤ 2 ^ 63 then some (-(n : Int)) else none)
      else (if n < 2 ^ 63 then some (n : Int) else none))

/-- `utils.GetEnvInt`; `env` is `os.Getenv`, which yields `""` for an unset variable. -/
def GetEnvInt (env : String → String) (key : String) (defaultValue : Int) : Int :=
  let value := env key
  if value ≠ "" then
    match strconvAtoi value with
    | some intValue => if intValue > 0 then intValue else defaultValue
    | none => defaultValue
  else defaultValue

/-- `utils.GetEnvString`. -/
def GetEnvString (env : String → String) (key : String) (defaultValue : String) : String :=
  let value := env key
  if value ≠ "" then value else defaultValue

/-! ## Go channels -/

/-- A buffered channel `chan models.PriceUpdate`: the queued items oldest first, the
capacity given to `make`, and whether `close` has been called. -/
structure Chan where
  buf : List PriceUpdate
  cap : Int
  closed : Bool
deriving DecidableEq, Repr

/-- Go `make(chan T, n)`: an open, empty channel; a negative size panics. -/
def makeChan (n : Int) : Option Chan :=
  if n < 0 then none else some { buf := [], cap := n, closed := false }

/-- The send case of `select { case ch <- v: ... default: ... }` with no receiver parked on
the channel: a closed channel panics (`none`); with room in the buffer the value is queued
(`some (some c)`); a full buffer selects the `default` case (`some none`). -/
def Chan.trySend (c : Chan) (v : PriceUpdate) : Option (Option Chan) :=
  if c.closed then none
  else if (c.buf.length : Int) < c.cap then some (some { c with buf := c.buf ++ [v] })
  else some none

/-- Go `close(ch)`: closing a closed channel panics. -/
def Chan.close (c : Chan) : Option Chan :=
  if c.closed then none else some { c with closed := true }

/-- The outcome of a receive `v, ok := <-ch`. -/
inductive Recv where
  | item (v : PriceUpdate)
  | closed
  | blocked
deriving DecidableEq, Repr

/-- Go `v, ok := <-ch`: the oldest queued item (`ok = true`), also after a close; on an
empty closed channel the zero value with `ok = false`; on an empty open channel the
receiver blocks. -/
def Chan.recv (c : Chan) : Recv × Chan :=
  match c.buf with
  | v :: rest => (Recv.item v, { c with buf := rest })
  | [] => if c.closed then (Recv.closed, c) else (Recv.blocked, c)

/-! ## internal/service/price_service.go -/

/-- The service (`service.PriceService`).  A `chan` value is a reference: `chans` lists
every channel object made so far and a handle is an index into it.  `clients` lists the
keys of the map `map[chan models.PriceUpdate]bool` (the values are always `true` and never
read); its order stands for the unspecified iteration order of the map. -/
structure PriceService where
  storage : PriceStorage
  chans : List Chan
  clients : List Nat
  apiURL : String
  bufferSize : Int
deriving DecidableEq, Repr

/-- Go `delete(m, k)` on the key list. -/
def mapDelete (clients : List Nat) (h : Nat) : List Nat :=
  clients.filter (fun k => decide (k ≠ h))

/-- Go `m[k] = true` on the key list. -/
def mapInsert (clients : List Nat) (h : Nat) : List Nat :=
  if h ∈ clients then clients else clients ++ [h]

/-- `NewPriceService(storage, logger)`, in a process where no channel exists yet. -/
def NewPriceService (env : String → String) (storage : PriceStorage) : PriceService :=
  { storage := storage
    chans := []
    clients := []
    apiURL := GetEnvString env "COINDESK_API_URL" "https://data-api.coindesk.com/asset/v1/top/list"
    bufferSize := GetEnvInt env "CLIENT_BUFFER_SIZE" 50 }

/-- The body of the `range` loop of `broadcastPrice` for the map key `h`: the `select`
with its send case and its `default` case (`delete`, then `close`). -/
def PriceService.deliver (ps : PriceService) (price : PriceUpdate) (h : Nat) :
    Option PriceService := do
  let c ← ps.chans[h]?
  match ← c.trySend price with
  | some c' => pure { ps with chans := ps.chans.set h c' }
  | none =>
    let c' ← c.close
    pure { ps with clients := mapDelete ps.clients h, chans := ps.chans.set h c' }

/-- The `range` loop of `broadcastPrice` over the keys still to visit.  The body deletes
no key but the current one, so the keys visited are the keys present at the start. -/
def PriceService.broadcastPrice.loop (price : PriceUpdate) :
    List Nat → PriceService → Option PriceService
  | [], ps => some ps
  | h :: rest, ps => (ps.deliver price h).bind (PriceService.broadcastPrice.loop price rest)

/-- `(*PriceService).broadcastPrice`. -/
def PriceService.broadcastPrice (ps : PriceService) (price : PriceUpdate) :
    Option PriceService :=
  PriceService.broadcastPrice.loop price ps.clients ps

/-- `(*PriceService).Subscribe`: the new channel object gets the next free handle. -/
def PriceService.Subscribe (ps : PriceService) : Option (Nat × PriceService) := do
  let c ← makeChan ps.bufferSize
  let clientChan := ps.chans.length
  pure (clientChan,
    { ps with chans := ps.chans ++ [c], clients := mapInsert ps.clients clientChan })

/-- `(*PriceService).Unsubscribe`. -/
def PriceService.Unsubscribe (ps : PriceService) (clientChan : Nat) : Option PriceService :=
  if clientChan ∈ ps.clients then do
    let c ← ps.chans[clientChan]?
    let c' ← c.close
    pure { ps with clients := mapDelete ps.clients clientChan,
                   chans := ps.chans.set clientChan c' }
  else some ps

/-- A consumer's receive `<-clientChan` on the channel with handle `h`. -/
def PriceService.receive (ps : PriceService) (h : Nat) : Option (Recv × PriceService) := do
  let c ← ps.chans[h]?
  pure ((c.recv).1, { ps with chans := ps.chans.set h (c.recv).2 })

/-- A run of `broadcastPrice` calls, one per sample, in list order. -/
def PriceService.broadcastAll (ps : PriceService) : List PriceUpdate → Option PriceService
  | [] => some ps
  | s :: ss => (ps.broadcastPrice s).bind (fun ps' => ps'.broadcastAll ss)

/-- The map invariant of the service: the keys are distinct, and each key is the handle of
an existing channel object that is open. -/
structure PriceService.WellFormed (ps : PriceService) : Prop where
  nodup : ps.clients.Nodup
  live : ∀ h ∈ ps.clients, ∃ c, ps.chans[h]? = some c ∧ c.closed = false

/-- Whether the queue with handle `k` exists and holds fewer items than its capacity. -/
def PriceService.hasRoom (ps : PriceService) (k : Nat) : Bool :=
  match ps.chans[k]? with
  | some c => decide ((c.buf.length : Int) < c.cap)
  | none => false

/-- The queue `c` after one broadcast of `s` reached it while it was open: `s` is queued
if there was room, otherwise the queue is closed with its items kept. -/
def Chan.afterBroadcast (c : Chan) (s : PriceUpdate) : Chan :=
  if (c.buf.length : Int) < c.cap then { c with buf := c.buf ++ [s] }
  else { c with closed := true }

/-- One call on the service, by the producer or by a consumer. -/
inductive ServiceOp where
  | subscribe
  | unsubscribe (h : Nat)
  | broadcast (s : PriceUpdate)
  | receive (h : Nat)
deriving DecidableEq, Repr

/-- The state after one call, with the handle the call returned, if it returns one. -/
def PriceService.step (ps : PriceService) : ServiceOp → Option (PriceService × Option Nat)
  | ServiceOp.subscribe => (ps.Subscribe).map (fun r => (r.2, some r.1))
  | ServiceOp.unsubscribe h => (ps.Unsubscribe h).map (fun p => (p, none))
  | ServiceOp.broadcast s => (ps.broadcastPrice s).map (fun p => (p, none))
  | ServiceOp.receive h => (ps.receive h).map (fun r => (r.2, none))

/-- The state after a sequence of calls, with the handles that its `Subscribe` calls
returned, in call order. -/
def PriceService.run (ps : PriceService) : List ServiceOp → Option (PriceService × List Nat)
  | [] => some (ps, [])
  | op :: ops =>
    (ps.step op).bind (fun r => (r.1.run ops).map (fun q => (q.1, r.2.toList ++ q.2)))

/-! ## Concrete states for the scenarios -/

/-- An environment in which only `CLIENT_BUFFER_SIZE` is set, to `"1"`. -/
def envBufferOne : String → String :=
  fun key => if key = "CLIENT_BUFFER_SIZE" then "1" else ""

/-- The store `NewPriceStorage` builds for capacity 2. -/
def storageTwo : PriceStorage :=
  { updates := [PriceUpdate.zero, PriceUpdate.zero], capacity := 2, head := 0, tail := 0,
    size := 0 }

/-- A service with buffer size 2 and two subscribers: queue 0 is empty, queue 1 holds one
item. -/
def roomyService : PriceService :=
  { storage := storageTwo
    chans := [{ buf := [], cap := 2, closed := false },
              { buf := [btc 1 100], cap := 2, closed := false }]
    clients := [0, 1]
    apiURL := "https://data-api.coindesk.com/asset/v1/top/list"
    bufferSize := 2 }

/-- A service with buffer size 2 and two subscribers: queue 0 is empty, queue 1 is full. -/
def fullService : PriceService :=
  { storage := storageTwo
    chans := [{ buf := [], cap := 2, closed := false },
              { buf := [btc 1 100, btc 2 101], cap := 2, closed := false }]
    clients := [0, 1]
    apiURL := "https://data-api.coindesk.com/asset/v1/top/list"
    bufferSize := 2 }

/-- Each sample's timestamp is strictly less than the next one's. -/
def ascendingTimestamps (l : List PriceUpdate) : Prop :=
  List.Chain' (fun a b => a.Timestamp < b.Timestamp) l

/-- The byte of the decimal digit `d`. -/
def digitChar (d : Fin 10) : Char :=
  Char.ofNat ('0'.toNat + d.val)

/-- The number written by a run of decimal digits, most significant first. -/
def numeralValue (ds : List (Fin 10)) : Nat :=
  ds.foldl (fun acc d => acc * 10 + d.val) 0

/-- Every registered queue was made with capacity `bufferSize` and holds at most that many
items. -/
def PriceService.Bounded (ps : PriceService) : Prop :=
  ∀ h ∈ ps.clients, ∀ c, ps.chans[h]? = some c →
    c.cap = ps.bufferSize ∧ (c.buf.length : Int) ≤ ps.bufferSize

/-- A service with buffer size 1 whose only queue was closed by an eviction and is no
longer registered. -/
def evictedService : PriceService :=
  { storage := storageTwo
    chans := [{ buf := [btc 1 100], cap := 1, closed := true }]
    clients := []
    apiURL := "https://data-api.coindesk.com/asset/v1/top/list"
    bufferSize := 1 }

/-- The items that the call `op`, made in state `ps`, hands to the consumer of the queue
with handle `h`: the item of a receive on `h`, if the receive yields one. -/
def PriceService.received (ps : PriceService) (h : Nat) : ServiceOp → List PriceUpdate
  | ServiceOp.receive k =>
    if k = h then
      match ps.receive k with
      | some (Recv.item v, _) => [v]
      | _ => []
    else []
  | _ => []

/-- The state after a sequence of calls, with the items the consumer of the queue with
handle `h` received, in the order received. -/
def PriceService.runReceived (h : Nat) (ps : PriceService) :
    List ServiceOp → Option (PriceService × List PriceUpdate)
  | [] => some (ps, [])
  | op :: ops =>
    (ps.step op).bind (fun r =>
      (PriceService.runReceived h r.1 ops).map (fun q => (q.1, ps.received h op ++ q.2)))

/-- The samples passed to `broadcastPrice` in a sequence of calls, in call order. -/
def broadcastSamples : List ServiceOp → List PriceUpdate
  | [] => []
  | ServiceOp.broadcast s :: ops => s :: broadcastSamples ops
  | ServiceOp.subscribe :: ops => broadcastSamples ops
  | ServiceOp.unsubscribe _ :: ops => broadcastSamples ops
  | ServiceOp.receive _ :: ops => broadcastSamples ops

/-! ## internal/service/price_service.go: fetching -/

/-- The fields of `models.AssetData` that the service reads; the price is an integer code
of the `float64`, as in `PriceUpdate`. -/
structure AssetData where
  Symbol : String
  Name : String
  PriceUSD : Int
  PriceUSDLastUpdateTS : Int
deriving DecidableEq, Repr

/-- What decoding the response body into `models.CoinDeskResponse` yields: an error, or
the list `Data.List`. -/
inductive Decoded where
  | failed (err : String)
  | list (assets : List AssetData)
deriving DecidableEq, Repr

/-- What `httpClient.Get(apiURL)` yields for one poll: an error, or a response with its
status code and body. -/
inductive HttpOutcome where
  | getFailed (err : String)
  | response (statusCode : Int) (body : Decoded)
deriving DecidableEq, Repr

/-- Two's-complement wrap-around of an `int64` sum. -/
def wrapInt64 (x : Int) : Int :=
  (x + 2 ^ 63) % 2 ^ 64 - 2 ^ 63

/-- Go `time.Unix(sec, 0)` as an instant in nanoseconds since the zero `time.Time`
(January 1, year 1 UTC, which is 62135596800 seconds before the Unix epoch). -/
def timeUnix (sec : Int) : Int :=
  wrapInt64 (sec + 62135596800) * 1000000000

/-- Go `time.Hour` in nanoseconds. -/
def timeHour : Int :=
  3600 * 1000000000

/-- The search loop of `fetchBitcoinPrice`: the first asset with symbol `"BTC"`. -/
def findBitcoin : List AssetData → Option AssetData
  | [] => none
  | asset :: rest => if asset.Symbol = "BTC" then some asset else findBitcoin rest

/-- `(*PriceService).fetchBitcoinPrice` for the outcome `resp` of the HTTP request;
`nowSince` is the clock reading inside `time.Since` and `nowStamp` the later reading of
`time.Now()`.  The result is the error message or the sample. -/
def PriceService.fetchBitcoinPrice (_ps : PriceService) (resp : HttpOutcome)
    (nowSince nowStamp : Int) : Except String PriceUpdate :=
  match resp with
  | HttpOutcome.getFailed err => Except.error ("failed to make HTTP request: " ++ err)
  | HttpOutcome.response statusCode body =>
    if statusCode ≠ 200 then
      Except.error ("API returned status code: " ++ toString statusCode)
    else
      match body with
      | Decoded.failed err => Except.error ("failed to decode API response: " ++ err)
      | Decoded.list assets =>
        match findBitcoin assets with
        | none => Except.error "bitcoin data not found in API response"
        | some bitcoinData =>
          let timestamp := timeUnix bitcoinData.PriceUSDLastUpdateTS
          let timestamp := if nowSince - timestamp > timeHour then nowStamp else timestamp
          Except.ok { Timestamp := timestamp, Price := bitcoinData.PriceUSD,
                      Symbol := bitcoinData.Symbol, Name := bitcoinData.Name }

/-- `(*PriceService).fetchAndBroadcastPrice`. -/
def PriceService.fetchAndBroadcastPrice (ps : PriceService) (resp : HttpOutcome)
    (nowSince nowStamp : Int) : Option PriceService :=
  match ps.fetchBitcoinPrice resp nowSince nowStamp with
  | Except.error _ => some ps
  | Except.ok price => do
    let storage ← ps.storage.Add price
    PriceService.broadcastPrice { ps with storage := storage } price

/-- The well-formed stores of capacity `C`: the buffer has `C` slots, `size`, `head` and
`tail` are in range, and `head` is `size` slots after `tail`, modulo `C`. -/
structure PriceStorage.RingInvariant (C : Int) (ps : PriceStorage) : Prop where
  cpos : 1 ≤ C
  cap : ps.capacity = C
  len : (ps.updates.length : Int) = C
  size_nonneg : 0 ≤ ps.size
  size_le : ps.size ≤ C
  head_nonneg : 0 ≤ ps.head
  head_lt : ps.head < C
  tail_nonneg : 0 ≤ ps.tail
  tail_lt : ps.tail < C
  head_eq : ps.head = (ps.tail + ps.size) % C

/-- The occupied slots, oldest to newest: the slots `(tail + i) mod capacity` for
`i = 0, ..., size - 1`. -/
def PriceStorage.occupied (ps : PriceStorage) : List PriceUpdate :=
  (List.range ps.size.toNat).map
    (fun i => ps.updates.getD ((ps.tail.toNat + i) % ps.capacity.toNat) PriceUpdate.zero)

/-- The effect of `Add` as the specification words it: `u` is written at index `head`,
`head` advances by one modulo the capacity, and either `size` grows by one (store not
full) or `tail` advances by one modulo the capacity (store full); the capacity stays. -/
def PriceStorage.addSpec (ps : PriceStorage) (u : PriceUpdate) : PriceStorage :=
  { updates := ps.updates.set ps.head.toNat u,
    capacity := ps.capacity,
    head := (ps.head + 1) % ps.capacity,
    tail := if ps.size < ps.capacity then ps.tail else (ps.tail + 1) % ps.capacity,
    size := if ps.size < ps.capacity then ps.size + 1 else ps.size }

/-- The store after three Adds at capacity 2: full, with `head = tail = 1`. -/
def wrappedStore : PriceStorage :=
  { updates := [btc 3 102, btc 2 101], capacity := 2, head := 1, tail := 1, size := 2 }

/-! ## Calls on the storage -/

/-- One call on the storage. -/
inductive StorageOp where
  | add (u : PriceUpdate)
  | getLatest
  | getAllUpdates
  | getUpdatesSince (since : Int)
deriving DecidableEq, Repr

/-- What a call on the storage returns. -/
inductive StorageReply where
  | added
  | latest (u : PriceUpdate) (found : Bool)
  | updates (l : List PriceUpdate)
deriving DecidableEq, Repr

/-- The store after one call, with what the call returned; `none` is a fault. -/
def PriceStorage.call (ps : PriceStorage) : StorageOp → Option (PriceStorage × StorageReply)
  | StorageOp.add u => (ps.Add u).map (fun ps' => (ps', StorageReply.added))
  | StorageOp.getLatest => (ps.GetLatest).map (fun r => (ps, StorageReply.latest r.1 r.2))
  | StorageOp.getAllUpdates => (ps.GetAllUpdates).map (fun l => (ps, StorageReply.updates l))
  | StorageOp.getUpdatesSince since =>
    (ps.GetUpdatesSince since).map (fun l => (ps, StorageReply.updates l))

/-- The store after a sequence of calls, with what each call returned, in call order. -/
def PriceStorage.calls (ps : PriceStorage) :
    List StorageOp → Option (PriceStorage × List StorageReply)
  | [] => some (ps, [])
  | op :: ops => (ps.call op).bind (fun r => (r.1.calls ops).map (fun q => (q.1, r.2 :: q.2)))

/-! ## internal/handlers/handlers.go: the consumer loops -/

/-- The value that `price := <-clientChan` binds in the consumer loops, which do not ask
for the second result `ok`: the oldest queued item, or the zero value once the channel is
closed and empty; on an open empty channel the receive case is not ready. -/
def receivedPrice : Recv → Option PriceUpdate
  | Recv.item v => some v
  | Recv.closed => some PriceUpdate.zero
  | Recv.blocked => none

/-- The case that the `select` of `handleSSE` takes in one iteration of its loop. -/
inductive SseCase where
  | receive
  | notify
  | done
deriving DecidableEq, Repr

/-- The case that the `select` of `handleWebSocket` takes in one iteration of its loop;
`writeErr` tells whether `conn.WriteMessage` then returns an error. -/
inductive WsCase where
  | receive (writeErr : Bool)
  | done
deriving DecidableEq, Repr

/-- The loop `for { select { ... } }` of `handleSSE` over the cases its `select` takes, in
order.  `marshalErr` tells for which values `json.Marshal` returns an error; `events` are
the samples written so far as `price` events.  The loop returns on `notify` and on `done`;
a receive case that is not ready is not taken and the `select` waits on. -/
def Handlers.handleSSE.loop (marshalErr : PriceUpdate → Bool) (clientChan : Nat) :
    List SseCase → PriceService → List PriceUpdate → Option (PriceService × List PriceUpdate)
  | [], ps, events => some (ps, events)
  | SseCase.notify :: _, ps, events => some (ps, events)
  | SseCase.done :: _, ps, events => some (ps, events)
  | SseCase.receive :: rest, ps, events =>
    (ps.receive clientChan).bind (fun r =>
      match receivedPrice r.1 with
      | none => Handlers.handleSSE.loop marshalErr clientChan rest r.2 events
      | some price =>
        if marshalErr price then
          Handlers.handleSSE.loop marshalErr clientChan rest r.2 events
        else
          Handlers.handleSSE.loop marshalErr clientChan rest r.2 (events ++ [price]))

/-- The loop `for { select { ... } }` of `handleWebSocket` over the cases its `select`
takes, in order; `events` are the samples sent so far as text messages.  The loop returns
on `done` and when `conn.WriteMessage` returns an error. -/
def Handlers.handleWebSocket.loop (marshalErr : PriceUpdate → Bool) (clientChan : Nat) :
    List WsCase → PriceService → List PriceUpdate → Option (PriceService × List PriceUpdate)
  | [], ps, events => some (ps, events)
  | WsCase.done :: _, ps, events => some (ps, events)
  | WsCase.receive writeErr :: rest, ps, events =>
    (ps.receive clientChan).bind (fun r =>
      match receivedPrice r.1 with
      | none => Handlers.handleWebSocket.loop marshalErr clientChan rest r.2 events
      | some price =>
        if marshalErr price then
          Handlers.handleWebSocket.loop marshalErr clientChan rest r.2 events
        else if writeErr then some (r.2, events)
        else Handlers.handleWebSocket.loop marshalErr clientChan rest r.2 (events ++ [price]))

/-- The service `evictedService` after its consumer has received the one buffered item:
queue 0 is closed and empty. -/
def drainedService : PriceService :=
  { storage := storageTwo
    chans := [{ buf := [], cap := 1, closed := true }]
    clients := []
    apiURL := "https://data-api.coindesk.com/asset/v1/top/list"
    bufferSize := 1 }

/-! ## Theorems: the ring buffer -/

theorem goMod_natCast (a C : Nat) (hC : 0 < C) :
    goMod (a : Int) (C : Int) = some ((a % C : Nat) : Int) := by
  have h0 : (C : Int) ≠ 0 := by omega
  simp only [goMod, if_neg h0]
  rw [Int.tmod_eq_emod (by omega) (by omega)]
  norm_cast

theorem sliceGet_natCast {α : Type} (xs : List α) (i : Nat) :
    sliceGet xs (i : Int) = xs[i]? := by
  unfold sliceGet
  by_cases h : i < xs.length
  · have : (0 : Int) ≤ (i : Int) ∧ (i : Int) < (xs.length : Int) := by omega
    rw [if_pos this]; simp
  · have : ¬ ((0 : Int) ≤ (i : Int) ∧ (i : Int) < (xs.length : Int)) := by omega
    rw [if_neg this]
    exact (List.getElem?_eq_none (by omega)).symm

theorem sliceSet_natCast {α : Type} (xs : List α) (i : Nat) (v : α) (h : i < xs.length) :
    sliceSet xs (i : Int) v = some (xs.set i v) := by
  unfold sliceSet
  have : (0 : Int) ≤ (i : Int) ∧ (i : Int) < (xs.length : Int) := by omega
  rw [if_pos this]; simp

theorem mod_ne_of_lt_of_sub_lt {k N C : Nat} (h1 : k < N) (h2 : N - k < C) :
    N % C ≠ k % C := by
  intro h
  have h3 : (N - k) % C = 0 := Nat.sub_mod_eq_zero_of_mod_eq h
  rw [Nat.mod_eq_of_lt h2] at h3
  omega

theorem PriceStorage.Holds.new (C : Nat) (hC : 0 < C) :
    ∃ ps, NewPriceStorage (C : Int) = some ps ∧ PriceStorage.Holds C [] ps := by
  have h0 : ¬ ((C : Int) < 0) := by omega
  refine ⟨_, by simp [NewPriceStorage, makeSlice, h0]; rfl, ?_⟩
  constructor <;> simp [hC]

theorem PriceStorage.Holds.add {C : Nat} {hist : List PriceUpdate} {ps : PriceStorage}
    (h : PriceStorage.Holds C hist ps) (u : PriceUpdate) :
    ∃ ps', ps.Add u = some ps' ∧ PriceStorage.Holds C (hist ++ [u]) ps' := by
  obtain ⟨hC, hcap, hlen, hhead, hsize, htail, hslot⟩ := h
  have hlt : hist.length % C < ps.updates.length := by rw [hlen]; exact Nat.mod_lt _ hC
  have hset : sliceSet ps.updates ps.head u = some (ps.updates.set (hist.length % C) u) := by
    rw [hhead]; exact sliceSet_natCast _ _ _ hlt
  have hhd : goMod (ps.head + 1) ps.capacity = some (((hist.length + 1) % C : Nat) : Int) := by
    rw [hhead, hcap]
    have := goMod_natCast (hist.length % C + 1) C hC
    rw [Nat.mod_add_mod] at this
    exact_mod_cast this
  have hslot' : ∀ k, (hist ++ [u]).length - C ≤ k → k < (hist ++ [u]).length →
      (ps.updates.set (hist.length % C) u)[k % C]? = (hist ++ [u])[k]? := by
    intro k hk1 hk2
    simp only [List.length_append, List.length_singleton] at hk1 hk2
    rw [List.getElem?_set]
    by_cases hk : k = hist.length
    · subst hk
      simp [hlt]
    · have hk3 : k < hist.length := by omega
      have hne : hist.length % C ≠ k % C := mod_ne_of_lt_of_sub_lt hk3 (by omega)
      rw [if_neg hne, hslot k (by omega) hk3, List.getElem?_append_left hk3]
  by_cases hfull : hist.length < C
  · have hsz : ps.size < ps.capacity := by rw [hsize, hcap]; omega
    refine ⟨_, by simp [PriceStorage.Add, hset, hhd, hsz]; rfl, ?_⟩
    constructor
    · exact hC
    · exact hcap
    · simp [hlen]
    · simp
    · simp only [hsize, List.length_append, List.length_singleton]; omega
    · simp only [htail, List.length_append, List.length_singleton]
      have e1 : hist.length - C = 0 := by omega
      have e2 : hist.length + 1 - C = 0 := by omega
      rw [e1, e2]
    · exact hslot'
  · have hsz : ¬ ps.size < ps.capacity := by rw [hsize, hcap]; omega
    have htl : goMod (ps.tail + 1) ps.capacity
        = some (((hist.length + 1 - C) % C : Nat) : Int) := by
      rw [htail, hcap]
      have := goMod_natCast ((hist.length - C) % C + 1) C hC
      rw [Nat.mod_add_mod] at this
      have e : hist.length - C + 1 = hist.length + 1 - C := by omega
      rw [e] at this
      exact_mod_cast this
    refine ⟨_, by simp [PriceStorage.Add, hset, hhd, hsz, htl]; rfl, ?_⟩
    constructor
    · exact hC
    · exact hcap
    · simp [hlen]
    · simp
    · simp only [hsize, List.length_append, List.length_singleton]; omega
    · simp
    · exact hslot'

theorem PriceStorage.Holds.addAll {C : Nat} (us : List PriceUpdate) :
    ∀ {hist : List PriceUpdate} {ps : PriceStorage}, PriceStorage.Holds C hist ps →
      ∃ ps', ps.AddAll us = some ps' ∧ PriceStorage.Holds C (hist ++ us) ps' := by
  induction us with
  | nil => intro hist ps h; exact ⟨ps, rfl, by simpa using h⟩
  | cons u us ih =>
    intro hist ps h
    obtain ⟨ps1, h1, hh1⟩ := h.add u
    obtain ⟨ps2, h2, hh2⟩ := ih hh1
    refine ⟨ps2, by simp [PriceStorage.AddAll, h1, h2], by simpa using hh2⟩

theorem storeAfter_holds (C : Nat) (hC : 0 < C) (xs : List PriceUpdate) :
    ∃ ps, storeAfter (C : Int) xs = some ps ∧ PriceStorage.Holds C xs ps := by
  obtain ⟨ps0, h0, hh0⟩ := PriceStorage.Holds.new C hC
  obtain ⟨ps, h1, hh1⟩ := PriceStorage.Holds.addAll xs hh0
  exact ⟨ps, by simp [storeAfter, h0, h1], by simpa using hh1⟩

/-- Under the invariant the `j`-th read of a range query succeeds and yields the `j`-th of
the retained samples `hist.drop (hist.length - C)`. -/
theorem PriceStorage.Holds.read {C : Nat} {hist : List PriceUpdate} {ps : PriceStorage}
    (h : PriceStorage.Holds C hist ps) (j : Nat)
    (hj : j < (hist.drop (hist.length - C)).length) :
    ∃ idx, goMod (ps.tail + (j : Int)) ps.capacity = some idx ∧
      sliceGet ps.updates idx = some ((hist.drop (hist.length - C))[j]) := by
  obtain ⟨hC, hcap, hlen, hhead, hsize, htail, hslot⟩ := h
  simp only [List.length_drop] at hj
  refine ⟨(((hist.length - C + j) % C : Nat) : Int), ?_, ?_⟩
  · rw [htail, hcap]
    have := goMod_natCast ((hist.length - C) % C + j) C hC
    rw [Nat.mod_add_mod] at this
    exact_mod_cast this
  · rw [sliceGet_natCast, hslot _ (by omega) (by omega)]
    rw [List.getElem?_eq_getElem (by omega)]
    simp

theorem getAllUpdates_loop_eq (ps : PriceStorage) (L : List PriceUpdate)
    (hread : ∀ j (hj : j < L.length), ∃ idx,
      goMod (ps.tail + (j : Int)) ps.capacity = some idx ∧
        sliceGet ps.updates idx = some (L[j])) :
    ∀ (n i : Nat), i + n = L.length →
      PriceStorage.GetAllUpdates.loop ps n (i : Int)
        (L.take i ++ List.replicate n PriceUpdate.zero) = some L := by
  intro n
  induction n with
  | zero =>
    intro i hi
    simp only [Nat.add_zero] at hi
    simp [PriceStorage.GetAllUpdates.loop, hi]
  | succ n ih =>
    intro i hi
    have hlt : i < L.length := by omega
    obtain ⟨idx, h1, h2⟩ := hread i hlt
    have hlen : (L.take i).length = i := by simp; omega
    have hset : sliceSet (L.take i ++ List.replicate (n + 1) PriceUpdate.zero) (i : Int) L[i]
        = some (L.take (i + 1) ++ List.replicate n PriceUpdate.zero) := by
      rw [sliceSet_natCast _ _ _ (by simp; omega)]
      congr 1
      rw [List.set_append, if_neg (by omega), hlen, Nat.sub_self, List.replicate_succ,
        List.set_cons_zero, List.take_succ, List.getElem?_eq_getElem hlt]
      simp only [Option.toList, List.append_assoc, List.singleton_append]
    have := ih (i + 1) (by omega)
    simp only [PriceStorage.GetAllUpdates.loop, h1, h2, hset, Option.bind_eq_bind,
      Option.some_bind]
    exact_mod_cast this

theorem getUpdatesSince_loop_eq (ps : PriceStorage) (since : Int)
    (L : List PriceUpdate)
    (hread : ∀ j (hj : j < L.length), ∃ idx,
      goMod (ps.tail + (j : Int)) ps.capacity = some idx ∧
        sliceGet ps.updates idx = some (L[j])) :
    ∀ (n i : Nat) (out : List PriceUpdate), i + n = L.length →
      PriceStorage.GetUpdatesSince.loop ps since n (i : Int) out
        = some (out ++ (L.drop i).filter (fun u => timeAfter u.Timestamp since)) := by
  intro n
  induction n with
  | zero =>
    intro i out hi
    simp only [Nat.add_zero] at hi
    simp [PriceStorage.GetUpdatesSince.loop, hi]
  | succ n ih =>
    intro i out hi
    have hlt : i < L.length := by omega
    obtain ⟨idx, h1, h2⟩ := hread i hlt
    have hd : L.drop i = L[i] :: L.drop (i + 1) := List.drop_eq_getElem_cons hlt
    simp only [PriceStorage.GetUpdatesSince.loop, h1, h2, Option.bind_eq_bind,
      Option.some_bind]
    rw [hd, List.filter_cons]
    split
    · have := ih (i + 1) (out ++ [L[i]]) (by omega)
      rw [List.append_assoc] at this
      exact_mod_cast this
    · have := ih (i + 1) out (by omega)
      exact_mod_cast this

theorem PriceStorage.Holds.getAllUpdates {C : Nat} {hist : List PriceUpdate}
    {ps : PriceStorage} (h : PriceStorage.Holds C hist ps) :
    ps.GetAllUpdates = some (hist.drop (hist.length - C)) := by
  have hs : ps.size = (((hist.drop (hist.length - C)).length : Nat) : Int) := by
    rw [h.size, List.length_drop]; congr 1; omega
  have := getAllUpdates_loop_eq ps _ (fun j hj => h.read j hj)
    (hist.drop (hist.length - C)).length 0 (by simp)
  have hneg : ¬ (hist.length < hist.length - C) := by omega
  simp only [PriceStorage.GetAllUpdates, makeSlice, hs]
  simpa [hneg] using this

theorem PriceStorage.Holds.getUpdatesSince {C : Nat} {hist : List PriceUpdate}
    {ps : PriceStorage} (h : PriceStorage.Holds C hist ps) (since : Int) :
    ps.GetUpdatesSince since
      = some ((hist.drop (hist.length - C)).filter (fun u => timeAfter u.Timestamp since)) := by
  have hs : ps.size = (((hist.drop (hist.length - C)).length : Nat) : Int) := by
    rw [h.size, List.length_drop]; congr 1; omega
  have := getUpdatesSince_loop_eq ps since _ (fun j hj => h.read j hj)
    (hist.drop (hist.length - C)).length 0 [] (by simp)
  simp only [PriceStorage.GetUpdatesSince, hs]
  simpa using this

theorem PriceStorage.Holds.getLatest {C : Nat} {hist : List PriceUpdate} {ps : PriceStorage}
    (s : PriceUpdate) (h : PriceStorage.Holds C (hist ++ [s]) ps) :
    ps.GetLatest = some (s, true) := by
  obtain ⟨hC, hcap, hlen, hhead, hsize, htail, hslot⟩ := h
  simp only [List.length_append, List.length_singleton] at hhead hsize htail hslot
  have hsz : ps.size ≠ 0 := by rw [hsize]; omega
  have hidx : goMod (ps.head - 1 + ps.capacity) ps.capacity
      = some ((hist.length % C : Nat) : Int) := by
    have h0 : ps.capacity ≠ 0 := by rw [hcap]; omega
    have hm : (0 : Int) ≤ (((hist.length + 1) % C : Nat) : Int) := by omega
    simp only [goMod, if_neg h0]
    rw [Int.tmod_eq_emod (by rw [hhead, hcap]; omega) (by rw [hcap]; omega), hhead, hcap,
      Int.add_emod_self]
    push_cast
    rw [Int.sub_emod, Int.emod_emod, ← Int.sub_emod]
    congr 2
    ring
  have hget : sliceGet ps.updates ((hist.length % C : Nat) : Int) = some s := by
    rw [sliceGet_natCast, hslot hist.length (by omega) (by omega)]
    simp
  unfold PriceStorage.GetLatest
  rw [if_neg hsz]
  simp only [hidx, hget, Option.bind_eq_bind, Option.some_bind]
  rfl

/-- Claim C1 (capacity invariant): for every capacity `C >= 1` and every sequence of more
than `C` samples added to a fresh store, every `Add` succeeds, `GetAllUpdates` returns the
last `C` samples of the sequence in insertion order (a list of length `C`), and the `size`
field equals `C`. -/
theorem getAllUpdates_last_capacity (C : Int) (hC : 1 ≤ C) (xs : List PriceUpdate)
    (hN : C < (xs.length : Int)) :
    ∃ ps, storeAfter C xs = some ps ∧
      ps.GetAllUpdates = some (xs.drop (xs.length - C.toNat)) ∧
      (xs.drop (xs.length - C.toNat)).length = C.toNat ∧
      ps.size = C := by
  lift C to ℕ using (by omega)
  obtain ⟨ps, h1, hh⟩ := storeAfter_holds C (by omega) xs
  refine ⟨ps, h1, ?_, ?_, ?_⟩
  · simpa using hh.getAllUpdates
  · simp only [List.length_drop, Int.toNat_ofNat]; omega
  · rw [hh.size]; congr 1; omega

/-- Claim C2 (latest correctness): for every capacity `C >= 1` and every non-empty sequence
of Adds on a fresh store, whatever its length (wrapping around included), every `Add`
succeeds and `GetLatest` returns `(s, true)` for the sample `s` of the most recent `Add`. -/
theorem getLatest_most_recent (C : Int) (hC : 1 ≤ C) (xs : List PriceUpdate)
    (s : PriceUpdate) :
    ∃ ps, storeAfter C (xs ++ [s]) = some ps ∧ ps.GetLatest = some (s, true) := by
  lift C to ℕ using (by omega)
  obtain ⟨ps, h1, hh⟩ := storeAfter_holds C (by omega) (xs ++ [s])
  exact ⟨ps, h1, hh.getLatest s⟩

/-- Claim C3 (since-filter correctness): in every reachable store and for every timestamp
`t`, `GetAllUpdates` and `GetUpdatesSince t` both return, and the latter is the former
filtered, order kept, to the samples whose timestamp is strictly greater than `t`; no
returned sample has timestamp `t`. -/
theorem getUpdatesSince_eq_filter (ps : PriceStorage) (h : ps.Reachable) (t : Int) :
    ∃ all, ps.GetAllUpdates = some all ∧
      ps.GetUpdatesSince t = some (all.filter (fun u => decide (t < u.Timestamp))) ∧
      ∀ u ∈ all.filter (fun u => decide (t < u.Timestamp)), u.Timestamp ≠ t := by
  obtain ⟨C, xs, hC, hps⟩ := h
  lift C to ℕ using (by omega)
  obtain ⟨ps', h1, hh⟩ := storeAfter_holds C (by omega) xs
  rw [hps] at h1
  cases h1
  refine ⟨_, hh.getAllUpdates, hh.getUpdatesSince t, ?_⟩
  intro u hu
  have := (List.mem_filter.mp hu).2
  simp only [decide_eq_true_eq] at this
  omega

/-- Claim C4 (empty store): a fresh store of capacity `C >= 1` is built without a fault,
and before any `Add` its `GetLatest` returns the zero sample with `found = false`,
`GetAllUpdates` returns the empty sequence and so does `GetUpdatesSince t` for every `t`;
all three return normally. -/
theorem empty_store_queries (C : Int) (hC : 1 ≤ C) :
    ∃ ps, NewPriceStorage C = some ps ∧
      ps.GetLatest = some (PriceUpdate.zero, false) ∧
      ps.GetAllUpdates = some [] ∧
      ∀ t, ps.GetUpdatesSince t = some [] := by
  have h0 : ¬ (C < 0) := by omega
  refine ⟨_, by simp [NewPriceStorage, makeSlice, h0]; rfl, ?_, ?_, ?_⟩
  · simp [PriceStorage.GetLatest]
  · simp [PriceStorage.GetAllUpdates, makeSlice, PriceStorage.GetAllUpdates.loop]
  · intro t
    simp [PriceStorage.GetUpdatesSince, PriceStorage.GetUpdatesSince.loop]

/-- Claim C5 (below capacity): for every capacity `C >= 1` and every sequence of at most
`C` samples, of any timestamps, added to a fresh store, every `Add` succeeds,
`GetAllUpdates` returns the whole sequence in the order added, and the `size` field is the
number of samples, which is the length of the returned sequence. -/
theorem getAllUpdates_below_capacity (C : Int) (hC : 1 ≤ C) (xs : List PriceUpdate)
    (hN : (xs.length : Int) ≤ C) :
    ∃ ps all, storeAfter C xs = some ps ∧ ps.GetAllUpdates = some all ∧ all = xs ∧
      ps.size = (xs.length : Int) ∧ (all.length : Int) = ps.size := by
  lift C to ℕ using (by omega)
  obtain ⟨ps, h1, hh⟩ := storeAfter_holds C (by omega) xs
  have hd : xs.length - C = 0 := by omega
  have hsz : ps.size = (xs.length : Int) := by rw [hh.size]; congr 1; omega
  refine ⟨ps, xs, h1, ?_, rfl, hsz, hsz.symm⟩
  simpa [hd] using hh.getAllUpdates

/-- Witness for C1: capacity 2 and the three samples of the wrapping scenario. -/
theorem getAllUpdates_last_capacity_witness :
    (1 : Int) ≤ 2 ∧ (2 : Int) < (([btc 1 100, btc 2 101, btc 3 102]).length : Int) ∧
      ∃ ps, storeAfter 2 [btc 1 100, btc 2 101, btc 3 102] = some ps ∧
        ps.GetAllUpdates = some (([btc 1 100, btc 2 101, btc 3 102]).drop
          (([btc 1 100, btc 2 101, btc 3 102]).length - (2 : Int).toNat)) ∧
        (([btc 1 100, btc 2 101, btc 3 102]).drop
          (([btc 1 100, btc 2 101, btc 3 102]).length - (2 : Int).toNat)).length
            = (2 : Int).toNat ∧
        ps.size = 2 :=
  ⟨by decide, by decide,
    getAllUpdates_last_capacity 2 (by decide) [btc 1 100, btc 2 101, btc 3 102] (by decide)⟩

/-- Witness for C2: capacity 2, two earlier samples and a third one that wraps around. -/
theorem getLatest_most_recent_witness :
    (1 : Int) ≤ 2 ∧
      ∃ ps, storeAfter 2 ([btc 1 100, btc 2 101] ++ [btc 3 102]) = some ps ∧
        ps.GetLatest = some (btc 3 102, true) :=
  ⟨by decide, getLatest_most_recent 2 (by decide) [btc 1 100, btc 2 101] (btc 3 102)⟩

/-- Witness for C3: the store after three Adds at capacity 2, queried since `t = 2`. -/
theorem getUpdatesSince_eq_filter_witness :
    PriceStorage.Reachable
        { updates := [btc 3 102, btc 2 101], capacity := 2, head := 1, tail := 1, size := 2 } ∧
      ∃ all,
        PriceStorage.GetAllUpdates
          { updates := [btc 3 102, btc 2 101], capacity := 2, head := 1, tail := 1, size := 2 }
            = some all ∧
        PriceStorage.GetUpdatesSince
          { updates := [btc 3 102, btc 2 101], capacity := 2, head := 1, tail := 1, size := 2 } 2
            = some (all.filter (fun u => decide ((2 : Int) < u.Timestamp))) ∧
        ∀ u ∈ all.filter (fun u => decide ((2 : Int) < u.Timestamp)), u.Timestamp ≠ 2 :=
  ⟨⟨2, [btc 1 100, btc 2 101, btc 3 102], by decide, by decide⟩,
    getUpdatesSince_eq_filter _
      ⟨2, [btc 1 100, btc 2 101, btc 3 102], by decide, by decide⟩ 2⟩

/-- Witness for C4: a fresh store of capacity 3. -/
theorem empty_store_queries_witness :
    (1 : Int) ≤ 3 ∧
      ∃ ps, NewPriceStorage 3 = some ps ∧
        ps.GetLatest = some (PriceUpdate.zero, false) ∧
        ps.GetAllUpdates = some [] ∧
        ∀ t, ps.GetUpdatesSince t = some [] :=
  ⟨by decide, empty_store_queries 3 (by decide)⟩

/-- Witness for C5: capacity 3 and three samples with decreasing and equal timestamps. -/
theorem getAllUpdates_below_capacity_witness :
    (1 : Int) ≤ 3 ∧ (([btc 9 100, btc 4 101, btc 4 102]).length : Int) ≤ 3 ∧
      ∃ ps all, storeAfter 3 [btc 9 100, btc 4 101, btc 4 102] = some ps ∧
        ps.GetAllUpdates = some all ∧ all = [btc 9 100, btc 4 101, btc 4 102] ∧
        ps.size = (([btc 9 100, btc 4 101, btc 4 102]).length : Int) ∧
        (all.length : Int) = ps.size :=
  ⟨by decide, by decide,
    getAllUpdates_below_capacity 3 (by decide) [btc 9 100, btc 4 101, btc 4 102] (by decide)⟩

/-! ## Theorems: the subscriber broadcast -/

theorem deliver_open (ps : PriceService) (s : PriceUpdate) (h : Nat) (c : Chan)
    (hc : ps.chans[h]? = some c) (ho : c.closed = false) :
    ps.deliver s h = some
      { ps with clients := if ps.hasRoom h then ps.clients else mapDelete ps.clients h,
                chans := ps.chans.set h (c.afterBroadcast s) } := by
  by_cases hr : (c.buf.length : Int) < c.cap
  · simp [PriceService.deliver, hc, Chan.trySend, ho, hr, PriceService.hasRoom,
      Chan.afterBroadcast]
  · simp [PriceService.deliver, hc, Chan.trySend, ho, hr, PriceService.hasRoom,
      Chan.afterBroadcast, Chan.close]

theorem hasRoom_congr {ps ps1 : PriceService} {k : Nat}
    (h : ps1.chans[k]? = ps.chans[k]?) : ps1.hasRoom k = ps.hasRoom k := by
  simp [PriceService.hasRoom, h]

theorem broadcast_loop_outcome (s : PriceUpdate) :
    ∀ (hs : List Nat) (ps : PriceService), hs.Nodup →
      (∀ h ∈ hs, ∃ c, ps.chans[h]? = some c ∧ c.closed = false) →
      ∃ ps', PriceService.broadcastPrice.loop s hs ps = some ps' ∧
        ps'.storage = ps.storage ∧ ps'.apiURL = ps.apiURL ∧
        ps'.bufferSize = ps.bufferSize ∧ ps'.chans.length = ps.chans.length ∧
        ps'.clients = ps.clients.filter (fun k => decide (k ∉ hs) || ps.hasRoom k) ∧
        (∀ k, k ∉ hs → ps'.chans[k]? = ps.chans[k]?) ∧
        (∀ h ∈ hs, ∀ c, ps.chans[h]? = some c →
          ps'.chans[h]? = some (c.afterBroadcast s)) := by
  intro hs
  induction hs with
  | nil =>
    intro ps _ _
    refine ⟨ps, rfl, rfl, rfl, rfl, rfl, ?_, fun _ _ => rfl, ?_⟩
    · simp
    · intro h hh; simp at hh
  | cons h rest ih =>
    intro ps hnd hlive
    obtain ⟨hnotin, hnd'⟩ := List.nodup_cons.mp hnd
    obtain ⟨c, hc, ho⟩ := hlive h (List.mem_cons_self _ _)
    have hlt : h < ps.chans.length := by
      rcases Nat.lt_or_ge h ps.chans.length with hl | hl
      · exact hl
      · rw [List.getElem?_eq_none hl] at hc; cases hc
    have hd := deliver_open ps s h c hc ho
    generalize hps1 : ({ ps with
        clients := if ps.hasRoom h then ps.clients else mapDelete ps.clients h,
        chans := ps.chans.set h (c.afterBroadcast s) } : PriceService) = ps1 at hd
    have hA : ∀ k, k ≠ h → ps1.chans[k]? = ps.chans[k]? := by
      intro k hk
      subst hps1
      exact List.getElem?_set_ne (Ne.symm hk)
    have hB : ps1.chans[h]? = some (c.afterBroadcast s) := by
      subst hps1
      simp [List.getElem?_set, hlt]
    have hlive1 : ∀ h' ∈ rest, ∃ c', ps1.chans[h']? = some c' ∧ c'.closed = false := by
      intro h' hh'
      have hne : h' ≠ h := fun e => hnotin (e ▸ hh')
      rw [hA h' hne]
      exact hlive h' (List.mem_cons_of_mem _ hh')
    obtain ⟨ps', hrun, hst, hurl, hbs, hlen, hcl, hframe, hupd⟩ := ih ps1 hnd' hlive1
    refine ⟨ps', ?_, ?_, ?_, ?_, ?_, ?_, ?_, ?_⟩
    · simp [PriceService.broadcastPrice.loop, hd, hrun]
    · rw [hst, ← hps1]
    · rw [hurl, ← hps1]
    · rw [hbs, ← hps1]
    · rw [hlen, ← hps1]; simp
    · rw [hcl]
      have hcl1 : ps1.clients = if ps.hasRoom h then ps.clients else mapDelete ps.clients h := by
        rw [← hps1]
      rw [hcl1]
      by_cases hr : ps.hasRoom h = true
      · rw [if_pos hr]
        apply List.filter_congr
        intro k _
        by_cases hk : k = h
        · subst hk; simp [hnotin, hr]
        · simp [hk, hasRoom_congr (hA k hk)]
      · rw [if_neg hr, mapDelete, List.filter_filter]
        apply List.filter_congr
        intro k _
        by_cases hk : k = h
        · subst hk; simp [hnotin, hr]
        · simp [hk, hasRoom_congr (hA k hk)]
    · intro k hk
      have hk1 : k ≠ h := fun e => hk (e ▸ List.mem_cons_self _ _)
      have hk2 : k ∉ rest := fun e => hk (List.mem_cons_of_mem _ e)
      rw [hframe k hk2, hA k hk1]
    · intro h' hh' c' hc'
      rcases List.mem_cons.mp hh' with e | e
      · subst e
        rw [hc] at hc'; cases hc'
        rw [hframe h' hnotin, hB]
      · have hne : h' ≠ h := fun e' => hnotin (e' ▸ e)
        exact hupd h' e c' (by rw [hA h' hne]; exact hc')

theorem chans_lt_of_getElem {ps : PriceService} {h : Nat} {c : Chan}
    (hc : ps.chans[h]? = some c) : h < ps.chans.length := by
  rcases Nat.lt_or_ge h ps.chans.length with hl | hl
  · exact hl
  · rw [List.getElem?_eq_none hl] at hc; cases hc

/-- One `broadcastPrice` on a well-formed service: it returns, visits each registered
queue once, keeps exactly the subscribers whose queue had room, and the result is
well-formed again. -/
theorem broadcastPrice_outcome (ps : PriceService) (wf : ps.WellFormed) (s : PriceUpdate) :
    ∃ ps', ps.broadcastPrice s = some ps' ∧
      ps'.storage = ps.storage ∧ ps'.apiURL = ps.apiURL ∧
      ps'.bufferSize = ps.bufferSize ∧ ps'.chans.length = ps.chans.length ∧
      ps'.clients = ps.clients.filter (fun k => ps.hasRoom k) ∧
      (∀ k, k ∉ ps.clients → ps'.chans[k]? = ps.chans[k]?) ∧
      (∀ h ∈ ps.clients, ∀ c, ps.chans[h]? = some c →
        ps'.chans[h]? = some (c.afterBroadcast s)) ∧
      ps'.WellFormed := by
  obtain ⟨ps', hrun, hst, hurl, hbs, hlen, hcl, hframe, hupd⟩ :=
    broadcast_loop_outcome s ps.clients ps wf.nodup wf.live
  have hcl' : ps'.clients = ps.clients.filter (fun k => ps.hasRoom k) := by
    rw [hcl]
    apply List.filter_congr
    intro k hk
    simp [hk]
  refine ⟨ps', hrun, hst, hurl, hbs, hlen, hcl', hframe, hupd, ?_, ?_⟩
  · rw [hcl']; exact wf.nodup.filter _
  · intro k hk
    rw [hcl'] at hk
    obtain ⟨hk1, hk2⟩ := List.mem_filter.mp hk
    obtain ⟨c, hc, ho⟩ := wf.live k hk1
    refine ⟨c.afterBroadcast s, hupd k hk1 c hc, ?_⟩
    have hr : (c.buf.length : Int) < c.cap := by
      simpa [PriceService.hasRoom, hc] using hk2
    simp [Chan.afterBroadcast, hr, ho]

/-- Later broadcasts never touch the queue of a handle that is not registered. -/
theorem broadcastAll_unregistered (h : Nat) (later : List PriceUpdate) :
    ∀ (ps : PriceService), ps.WellFormed → h ∉ ps.clients →
      ∃ ps', ps.broadcastAll later = some ps' ∧ ps'.chans[h]? = ps.chans[h]? ∧
        h ∉ ps'.clients ∧ ps'.WellFormed := by
  induction later with
  | nil => intro ps wf hn; exact ⟨ps, rfl, rfl, hn, wf⟩
  | cons s ss ih =>
    intro ps wf hn
    obtain ⟨ps1, hrun, _, _, _, _, hcl, hframe, _, wf1⟩ := broadcastPrice_outcome ps wf s
    have hn1 : h ∉ ps1.clients := by
      rw [hcl]; exact fun hm => hn (List.mem_filter.mp hm).1
    obtain ⟨ps2, hrun2, hch2, hn2, wf2⟩ := ih ps1 wf1 hn1
    exact ⟨ps2, by simp [PriceService.broadcastAll, hrun, hrun2],
      by rw [hch2, hframe h hn], hn2, wf2⟩

/-- `Subscribe` on a well-formed service whose buffer size `make` accepts. -/
theorem subscribe_outcome (ps : PriceService) (wf : ps.WellFormed)
    (hB : 0 ≤ ps.bufferSize) :
    ps.Subscribe = some (ps.chans.length,
      { ps with chans := ps.chans ++ [{ buf := [], cap := ps.bufferSize, closed := false }],
                clients := ps.clients ++ [ps.chans.length] }) ∧
    ps.chans.length ∉ ps.clients ∧
    PriceService.WellFormed
      { ps with chans := ps.chans ++ [{ buf := [], cap := ps.bufferSize, closed := false }],
                clients := ps.clients ++ [ps.chans.length] } := by
  have hfresh : ps.chans.length ∉ ps.clients := by
    intro hm
    obtain ⟨c, hc, _⟩ := wf.live _ hm
    exact absurd (chans_lt_of_getElem hc) (Nat.lt_irrefl _)
  have hneg : ¬ ps.bufferSize < 0 := by omega
  refine ⟨by simp [PriceService.Subscribe, makeChan, hneg, mapInsert, hfresh], hfresh, ?_, ?_⟩
  · simp only
    exact List.Nodup.append wf.nodup (List.nodup_singleton _) (by simpa using hfresh)
  · intro k hk
    simp only [List.mem_append, List.mem_singleton] at hk
    rcases hk with hk | hk
    · obtain ⟨c, hc, ho⟩ := wf.live k hk
      exact ⟨c, by simp [List.getElem?_append_left (chans_lt_of_getElem hc), hc], ho⟩
    · subst hk
      exact ⟨{ buf := [], cap := ps.bufferSize, closed := false }, by simp, rfl⟩

theorem unsubscribe_outcome (ps : PriceService) (wf : ps.WellFormed) (h : Nat)
    (hreg : h ∈ ps.clients) (c : Chan) (hc : ps.chans[h]? = some c) :
    ps.Unsubscribe h = some
      { ps with clients := mapDelete ps.clients h,
                chans := ps.chans.set h { c with closed := true } } ∧
    PriceService.WellFormed
      { ps with clients := mapDelete ps.clients h,
                chans := ps.chans.set h { c with closed := true } } := by
  obtain ⟨c0, hc0, ho⟩ := wf.live h hreg
  rw [hc] at hc0; cases hc0
  refine ⟨by simp [PriceService.Unsubscribe, hreg, hc, Chan.close, ho], ?_, ?_⟩
  · exact wf.nodup.filter _
  · intro k hk
    simp only [mapDelete, List.mem_filter, decide_eq_true_eq] at hk
    obtain ⟨c', hc', ho'⟩ := wf.live k hk.1
    exact ⟨c', by simp only; rw [List.getElem?_set_ne (Ne.symm hk.2)]; exact hc', ho'⟩

theorem unsubscribe_unregistered (ps : PriceService) (h : Nat) (hn : h ∉ ps.clients) :
    ps.Unsubscribe h = some ps := by
  simp [PriceService.Unsubscribe, hn]

theorem not_mem_mapDelete (clients : List Nat) (h : Nat) : h ∉ mapDelete clients h := by
  simp [mapDelete]

theorem length_mapDelete (clients : List Nat) (h : Nat) (hnd : clients.Nodup)
    (hm : h ∈ clients) : (mapDelete clients h).length + 1 = clients.length := by
  have e : mapDelete clients h = clients.erase h := by
    rw [hnd.erase_eq_filter]
    apply List.filter_congr
    intro k _
    by_cases hk : k = h <;> simp [hk]
  rw [e, List.length_erase_of_mem hm]
  have : 0 < clients.length := List.length_pos_of_mem hm
  omega

theorem receive_outcome (ps : PriceService) (wf : ps.WellFormed) (h : Nat) (c : Chan)
    (hc : ps.chans[h]? = some c) :
    ps.receive h = some ((c.recv).1, { ps with chans := ps.chans.set h (c.recv).2 }) ∧
    PriceService.WellFormed { ps with chans := ps.chans.set h (c.recv).2 } := by
  refine ⟨by simp [PriceService.receive, hc], wf.nodup, ?_⟩
  intro k hk
  obtain ⟨c', hc', ho'⟩ := wf.live k hk
  by_cases e : k = h
  · subst e
    rw [hc] at hc'; cases hc'
    refine ⟨(c.recv).2, by simp [List.getElem?_set, chans_lt_of_getElem hc], ?_⟩
    unfold Chan.recv
    split
    · exact ho'
    · split <;> exact ho'
  · exact ⟨c', by simp only; rw [List.getElem?_set_ne (Ne.symm e)]; exact hc', ho'⟩

theorem deliver_chans_length {ps ps1 : PriceService} {s : PriceUpdate} {h : Nat}
    (hd : ps.deliver s h = some ps1) : ps1.chans.length = ps.chans.length := by
  unfold PriceService.deliver at hd
  cases hc : ps.chans[h]? with
  | none => simp [hc] at hd
  | some c =>
    cases ht : c.trySend s with
    | none => simp [hc, ht] at hd
    | some r =>
      cases r with
      | some c' =>
        simp [hc, ht] at hd
        subst hd; simp
      | none =>
        cases hcl : c.close with
        | none => simp [hc, ht, hcl] at hd
        | some c' =>
          simp [hc, ht, hcl] at hd
          subst hd; simp

theorem broadcast_loop_chans_length (s : PriceUpdate) :
    ∀ (hs : List Nat) (ps ps' : PriceService),
      PriceService.broadcastPrice.loop s hs ps = some ps' →
      ps'.chans.length = ps.chans.length := by
  intro hs
  induction hs with
  | nil => intro ps ps' h; simp [PriceService.broadcastPrice.loop] at h; rw [h]
  | cons k rest ih =>
    intro ps ps' h
    simp only [PriceService.broadcastPrice.loop] at h
    cases hd : ps.deliver s k with
    | none => simp [hd] at h
    | some ps1 =>
      simp only [hd, Option.some_bind] at h
      rw [ih ps1 ps' h, deliver_chans_length hd]

theorem step_chans_length {ps ps' : PriceService} {op : ServiceOp} {r : Option Nat}
    (h : ps.step op = some (ps', r)) :
    ps.chans.length ≤ ps'.chans.length ∧ ∀ k ∈ r, k < ps'.chans.length := by
  cases op with
  | subscribe =>
    simp only [PriceService.step, PriceService.Subscribe, makeChan] at h
    by_cases hb : ps.bufferSize < 0
    · simp [hb] at h
    · simp [hb] at h
      obtain ⟨h1, h2⟩ := h
      subst h1 h2
      simp
  | unsubscribe k =>
    simp only [PriceService.step, PriceService.Unsubscribe] at h
    by_cases hk : k ∈ ps.clients
    · cases hc : ps.chans[k]? with
      | none => simp [hk, hc] at h
      | some c =>
        cases hcl : c.close with
        | none => simp [hk, hc, hcl] at h
        | some c' =>
          simp [hk, hc, hcl] at h
          obtain ⟨h1, h2⟩ := h
          subst h1 h2
          simp
    · simp [hk] at h
      obtain ⟨h1, h2⟩ := h
      subst h1 h2
      simp
  | broadcast s =>
    simp only [PriceService.step, PriceService.broadcastPrice] at h
    cases hb : PriceService.broadcastPrice.loop s ps.clients ps with
    | none => simp [hb] at h
    | some p =>
      simp [hb] at h
      obtain ⟨h1, h2⟩ := h
      subst h1 h2
      simp [broadcast_loop_chans_length s _ _ _ hb]
  | receive k =>
    simp only [PriceService.step, PriceService.receive] at h
    cases hc : ps.chans[k]? with
    | none => simp [hc] at h
    | some c =>
      simp [hc] at h
      obtain ⟨h1, h2⟩ := h
      subst h1 h2
      simp

theorem run_returned_lt (ops : List ServiceOp) :
    ∀ (ps0 ps : PriceService) (returned : List Nat),
      ps0.run ops = some (ps, returned) →
      ps0.chans.length ≤ ps.chans.length ∧ ∀ k ∈ returned, k < ps.chans.length := by
  induction ops with
  | nil =>
    intro ps0 ps returned h
    simp [PriceService.run] at h
    obtain ⟨h1, h2⟩ := h
    subst h1 h2
    simp
  | cons op ops ih =>
    intro ps0 ps returned h
    simp only [PriceService.run] at h
    cases hs : ps0.step op with
    | none => simp [hs] at h
    | some r =>
      obtain ⟨ps1, r1⟩ := r
      simp only [hs, Option.some_bind] at h
      cases hr : ps1.run ops with
      | none => simp [hr] at h
      | some q =>
        obtain ⟨ps2, ret2⟩ := q
        simp [hr] at h
        obtain ⟨h1, h2⟩ := h
        subst h1 h2
        obtain ⟨hle1, hlt1⟩ := step_chans_length hs
        obtain ⟨hle2, hlt2⟩ := ih ps1 ps2 ret2 hr
        refine ⟨by omega, ?_⟩
        intro k hk
        simp only [List.mem_append, Option.mem_toList] at hk
        rcases hk with hk | hk
        · exact Nat.lt_of_lt_of_le (hlt1 k hk) hle2
        · exact hlt2 k hk

theorem step_wellFormed {ps ps' : PriceService} {op : ServiceOp} {r : Option Nat}
    (wf : ps.WellFormed) (h : ps.step op = some (ps', r)) :
    ps'.WellFormed ∧ ps'.bufferSize = ps.bufferSize := by
  cases op with
  | subscribe =>
    have hB : 0 ≤ ps.bufferSize := by
      by_contra hb
      have hb' : ps.bufferSize < 0 := by omega
      simp [PriceService.step, PriceService.Subscribe, makeChan, hb'] at h
    obtain ⟨hsub, _, wf'⟩ := subscribe_outcome ps wf hB
    simp only [PriceService.step, hsub, Option.map_some', Option.some.injEq,
      Prod.mk.injEq] at h
    obtain ⟨h1, _⟩ := h
    subst h1
    exact ⟨wf', rfl⟩
  | unsubscribe k =>
    by_cases hk : k ∈ ps.clients
    · obtain ⟨c, hc, _⟩ := wf.live k hk
      obtain ⟨hun, wf'⟩ := unsubscribe_outcome ps wf k hk c hc
      simp only [PriceService.step, hun, Option.map_some', Option.some.injEq,
        Prod.mk.injEq] at h
      obtain ⟨h1, _⟩ := h
      subst h1
      exact ⟨wf', rfl⟩
    · simp only [PriceService.step, unsubscribe_unregistered ps k hk, Option.map_some',
        Option.some.injEq, Prod.mk.injEq] at h
      obtain ⟨h1, _⟩ := h
      subst h1
      exact ⟨wf, rfl⟩
  | broadcast s =>
    obtain ⟨p, hrun, _, _, hbs, _, _, _, _, wf'⟩ := broadcastPrice_outcome ps wf s
    simp only [PriceService.step, hrun, Option.map_some', Option.some.injEq,
      Prod.mk.injEq] at h
    obtain ⟨h1, _⟩ := h
    subst h1
    exact ⟨wf', hbs⟩
  | receive k =>
    cases hc : ps.chans[k]? with
    | none => simp [PriceService.step, PriceService.receive, hc] at h
    | some c =>
      obtain ⟨hrc, wf'⟩ := receive_outcome ps wf k c hc
      simp only [PriceService.step, hrc, Option.map_some', Option.some.injEq,
        Prod.mk.injEq] at h
      obtain ⟨h1, _⟩ := h
      subst h1
      exact ⟨wf', rfl⟩

theorem run_wellFormed (ops : List ServiceOp) :
    ∀ (ps0 ps : PriceService) (returned : List Nat), ps0.WellFormed →
      ps0.run ops = some (ps, returned) →
      ps.WellFormed ∧ ps.bufferSize = ps0.bufferSize := by
  induction ops with
  | nil =>
    intro ps0 ps returned wf h
    simp [PriceService.run] at h
    obtain ⟨h1, _⟩ := h
    subst h1
    exact ⟨wf, rfl⟩
  | cons op ops ih =>
    intro ps0 ps returned wf h
    simp only [PriceService.run] at h
    cases hs : ps0.step op with
    | none => simp [hs] at h
    | some r =>
      obtain ⟨ps1, r1⟩ := r
      simp only [hs, Option.some_bind] at h
      cases hr : ps1.run ops with
      | none => simp [hr] at h
      | some q =>
        obtain ⟨ps2, ret2⟩ := q
        simp [hr] at h
        obtain ⟨h1, _⟩ := h
        subst h1
        obtain ⟨wf1, hb1⟩ := step_wellFormed wf hs
        obtain ⟨wf2, hb2⟩ := ih ps1 ps2 ret2 wf1 hr
        exact ⟨wf2, by rw [hb2, hb1]⟩

theorem getEnvInt_pos (env : String → String) (key : String) (d : Int) (hd : 0 < d) :
    0 < GetEnvInt env key d := by
  unfold GetEnvInt
  simp only
  split
  · split
    · split
      · assumption
      · exact hd
    · exact hd
  · exact hd

/-- Every state reached from `NewPriceService` by service calls is well-formed and has a
positive buffer size. -/
theorem reachable_wellFormed (env : String → String) (storage : PriceStorage)
    (ops : List ServiceOp) (ps : PriceService) (returned : List Nat)
    (h : (NewPriceService env storage).run ops = some (ps, returned)) :
    ps.WellFormed ∧ 0 < ps.bufferSize := by
  have wf0 : (NewPriceService env storage).WellFormed :=
    ⟨List.nodup_nil, fun k hk => by simp [NewPriceService] at hk⟩
  obtain ⟨wf, hb⟩ := run_wellFormed ops _ ps returned wf0 h
  refine ⟨wf, ?_⟩
  rw [hb]
  exact getEnvInt_pos env _ 50 (by decide)

/-- Claim C6 (fan-out delivery): in a well-formed service whose registered queues were made
with capacity `bufferSize` and each hold fewer than `bufferSize` items, `broadcastPrice s`
returns, leaves the same subscribers registered, and appends `s` to each of their queues;
a queue that was empty then yields `s` as its next received item. -/
theorem broadcast_fans_out (ps : PriceService) (wf : ps.WellFormed) (s : PriceUpdate)
    (hroom : ∀ h ∈ ps.clients, ∀ c, ps.chans[h]? = some c →
      c.cap = ps.bufferSize ∧ (c.buf.length : Int) < ps.bufferSize) :
    ∃ ps', ps.broadcastPrice s = some ps' ∧ ps'.clients = ps.clients ∧
      ∀ h ∈ ps.clients, ∃ c, ps.chans[h]? = some c ∧
        ps'.chans[h]? = some { c with buf := c.buf ++ [s] } ∧
        (c.buf = [] → ∃ ps'', ps'.receive h = some (Recv.item s, ps'')) := by
  obtain ⟨ps', hrun, _, _, _, _, hcl, _, hupd, _⟩ := broadcastPrice_outcome ps wf s
  have hall : ∀ h ∈ ps.clients, ∀ c, ps.chans[h]? = some c →
      (c.buf.length : Int) < c.cap := by
    intro h hh c hc
    obtain ⟨h1, h2⟩ := hroom h hh c hc
    rw [h1]; exact h2
  refine ⟨ps', hrun, ?_, ?_⟩
  · rw [hcl]
    apply List.filter_eq_self.mpr
    intro h hh
    obtain ⟨c, hc, _⟩ := wf.live h hh
    simpa [PriceService.hasRoom, hc] using hall h hh c hc
  · intro h hh
    obtain ⟨c, hc, _⟩ := wf.live h hh
    have hc' : ps'.chans[h]? = some { c with buf := c.buf ++ [s] } := by
      rw [hupd h hh c hc]
      simp [Chan.afterBroadcast, hall h hh c hc]
    refine ⟨c, hc, hc', ?_⟩
    intro hempty
    refine ⟨{ ps' with chans := ps'.chans.set h { buf := [], cap := c.cap, closed := c.closed } },
      ?_⟩
    simp [PriceService.receive, hc', Chan.recv, hempty]

/-- Claim C7 (eviction on backpressure): in a well-formed service, a registered subscriber
whose queue holds as many items as its capacity is removed from the clients map and its
queue is closed, items kept, by that very `broadcastPrice` call; every later run of
broadcasts returns and leaves that queue as it is and the handle unregistered.  In
particular, with buffer size 1 and no subscriber, `Subscribe` and two broadcasts without a
receive deliver the first sample and leave zero registered subscribers. -/
theorem broadcast_evicts_full (ps : PriceService) (wf : ps.WellFormed) (h : Nat) (c : Chan)
    (s : PriceUpdate) (hreg : h ∈ ps.clients) (hc : ps.chans[h]? = some c)
    (hfull : (c.buf.length : Int) = c.cap) :
    (∃ ps', ps.broadcastPrice s = some ps' ∧ h ∉ ps'.clients ∧
      ps'.chans[h]? = some { c with closed := true } ∧
      ∀ later : List PriceUpdate, ∃ ps'', ps'.broadcastAll later = some ps'' ∧
        ps''.chans[h]? = some { c with closed := true } ∧ h ∉ ps''.clients) ∧
    (∀ (qs : PriceService) (a b : PriceUpdate), qs.WellFormed → qs.clients = [] →
      qs.bufferSize = 1 →
      ∃ h1 p1 p2 p3, qs.Subscribe = some (h1, p1) ∧ p1.clients = [h1] ∧
        p1.broadcastPrice a = some p2 ∧ p2.clients = [h1] ∧
        p2.chans[h1]? = some { buf := [a], cap := 1, closed := false } ∧
        p2.broadcastPrice b = some p3 ∧ p3.clients.length = 0) := by
  constructor
  · obtain ⟨ps', hrun, _, _, _, _, hcl, _, hupd, wf'⟩ := broadcastPrice_outcome ps wf s
    have hnr : ¬ ((c.buf.length : Int) < c.cap) := by omega
    have hn : h ∉ ps'.clients := by
      rw [hcl]
      intro hm
      have := (List.mem_filter.mp hm).2
      simp [PriceService.hasRoom, hc, hnr] at this
    have hch : ps'.chans[h]? = some { c with closed := true } := by
      rw [hupd h hreg c hc]
      simp [Chan.afterBroadcast, hnr]
    refine ⟨ps', hrun, hn, hch, ?_⟩
    intro later
    obtain ⟨ps'', hrun2, hch2, hn2, _⟩ := broadcastAll_unregistered h later ps' wf' hn
    exact ⟨ps'', hrun2, by rw [hch2, hch], hn2⟩
  · intro qs a b wfq hq hb
    obtain ⟨hsub, _, wf1⟩ := subscribe_outcome qs wfq (by omega)
    generalize hp1 : ({ qs with
        chans := qs.chans ++ [{ buf := [], cap := qs.bufferSize, closed := false }],
        clients := qs.clients ++ [qs.chans.length] } : PriceService) = p1 at hsub wf1
    have hcl1 : p1.clients = [qs.chans.length] := by rw [← hp1]; simp [hq]
    have hch1 : p1.chans[qs.chans.length]? = some { buf := [], cap := 1, closed := false } := by
      rw [← hp1]; simp [hb]
    obtain ⟨p2, hrun2, _, _, _, _, hcl2, _, hupd2, wf2⟩ := broadcastPrice_outcome p1 wf1 a
    have hcl2' : p2.clients = [qs.chans.length] := by
      rw [hcl2, hcl1]
      simp [PriceService.hasRoom, hch1]
    have hch2 : p2.chans[qs.chans.length]? = some { buf := [a], cap := 1, closed := false } := by
      rw [hupd2 _ (by rw [hcl1]; exact List.mem_singleton_self _) _ hch1]
      simp [Chan.afterBroadcast]
    obtain ⟨p3, hrun3, _, _, _, _, hcl3, _, _, _⟩ := broadcastPrice_outcome p2 wf2 b
    have hcl3' : p3.clients = [] := by
      rw [hcl3, hcl2']
      simp [PriceService.hasRoom, hch2]
    exact ⟨qs.chans.length, p1, p2, p3, hsub, hcl1, hrun2, hcl2', hch2, hrun3,
      by rw [hcl3']; rfl⟩

/-- Claim C8 (Unsubscribe idempotence): for every state and handle, a second
`Unsubscribe h` after a first that returned leaves the state exactly as the first left it;
`Unsubscribe` of a handle that is not registered returns the state unchanged, without a
fault; in a well-formed service `Unsubscribe` never faults, so no closed queue is closed
again; and after a broadcast has evicted a registered `h` whose queue was full,
`Unsubscribe h` returns the state unchanged. -/
theorem unsubscribe_idempotent (ps : PriceService) (h : Nat) :
    (∀ ps1, ps.Unsubscribe h = some ps1 → ps1.Unsubscribe h = some ps1) ∧
    (h ∉ ps.clients → ps.Unsubscribe h = some ps) ∧
    (ps.WellFormed → ∃ ps1, ps.Unsubscribe h = some ps1 ∧ ps1.Unsubscribe h = some ps1) ∧
    (ps.WellFormed → h ∈ ps.clients → ps.hasRoom h = false → ∀ s, ∃ ps',
      ps.broadcastPrice s = some ps' ∧ h ∉ ps'.clients ∧ ps'.Unsubscribe h = some ps') := by
  have hfirst : ∀ ps1, ps.Unsubscribe h = some ps1 → ps1.Unsubscribe h = some ps1 := by
    intro ps1 h1
    apply unsubscribe_unregistered
    by_cases hk : h ∈ ps.clients
    · simp only [PriceService.Unsubscribe, if_pos hk] at h1
      cases hc : ps.chans[h]? with
      | none => simp [hc] at h1
      | some c =>
        cases hcl : c.close with
        | none => simp [hc, hcl] at h1
        | some c' =>
          simp [hc, hcl] at h1
          subst h1
          exact not_mem_mapDelete _ _
    · rw [unsubscribe_unregistered ps h hk] at h1
      cases h1
      exact hk
  refine ⟨hfirst, unsubscribe_unregistered ps h, ?_, ?_⟩
  · intro wf
    by_cases hk : h ∈ ps.clients
    · obtain ⟨c, hc, _⟩ := wf.live h hk
      obtain ⟨hun, _⟩ := unsubscribe_outcome ps wf h hk c hc
      exact ⟨_, hun, hfirst _ hun⟩
    · exact ⟨ps, unsubscribe_unregistered ps h hk,
        unsubscribe_unregistered ps h hk⟩
  · intro wf _ hfull s
    obtain ⟨ps', hrun, _, _, _, _, hcl, _, _, _⟩ := broadcastPrice_outcome ps wf s
    have hn : h ∉ ps'.clients := by
      rw [hcl]
      intro hm
      have := (List.mem_filter.mp hm).2
      rw [hfull] at this
      cases this
    exact ⟨ps', hrun, hn, unsubscribe_unregistered ps' h hn⟩

/-- Claim C9 (Unsubscribe frame): in a well-formed service, `Unsubscribe h` of a registered
handle returns, removes `h` from the clients map so that the subscriber count drops by
exactly one, closes the queue of `h` with its buffered items kept, and leaves every other
handle's registration and queue, and the storage, as they were. -/
theorem unsubscribe_removes_and_closes (ps : PriceService) (wf : ps.WellFormed) (h : Nat)
    (c : Chan) (hreg : h ∈ ps.clients) (hc : ps.chans[h]? = some c) :
    ∃ ps', ps.Unsubscribe h = some ps' ∧ h ∉ ps'.clients ∧
      ps'.clients.length + 1 = ps.clients.length ∧
      ps'.chans[h]? = some { buf := c.buf, cap := c.cap, closed := true } ∧
      (∀ k, k ≠ h → ((k ∈ ps'.clients ↔ k ∈ ps.clients) ∧ ps'.chans[k]? = ps.chans[k]?)) ∧
      ps'.storage = ps.storage ∧ ps'.bufferSize = ps.bufferSize := by
  obtain ⟨hun, _⟩ := unsubscribe_outcome ps wf h hreg c hc
  refine ⟨_, hun, not_mem_mapDelete _ _, length_mapDelete _ _ wf.nodup hreg, ?_, ?_, rfl, rfl⟩
  · simp [List.getElem?_set, chans_lt_of_getElem hc]
  · intro k hk
    refine ⟨?_, ?_⟩
    · simp [mapDelete, hk]
    · simp only
      exact List.getElem?_set_ne (Ne.symm hk)

/-- Claim C10 (Subscribe): in a well-formed service whose buffer size is not negative,
`Subscribe` returns a handle that was not registered, names no channel that existed before
the call and so differs from every handle any earlier `Subscribe` in the history of the
state returned; it registers the handle with an open, empty queue of capacity
`bufferSize`, raises the subscriber count by exactly one, and leaves every other handle's
registration and queue, and the storage, as they were. -/
theorem subscribe_registers_fresh (ps : PriceService) (wf : ps.WellFormed)
    (hB : 0 ≤ ps.bufferSize) :
    ∃ h ps', ps.Subscribe = some (h, ps') ∧
      h ∉ ps.clients ∧ ps.chans[h]? = none ∧
      (∀ (ps0 : PriceService) (ops : List ServiceOp) (returned : List Nat),
        ps0.run ops = some (ps, returned) → h ∉ returned) ∧
      h ∈ ps'.clients ∧
      ps'.chans[h]? = some { buf := [], cap := ps.bufferSize, closed := false } ∧
      ps'.clients.length = ps.clients.length + 1 ∧
      (∀ k, k ≠ h → ((k ∈ ps'.clients ↔ k ∈ ps.clients) ∧ ps'.chans[k]? = ps.chans[k]?)) ∧
      (∀ k ∈ ps.clients, k ∈ ps'.clients ∧ ps'.chans[k]? = ps.chans[k]?) ∧
      ps'.storage = ps.storage ∧ ps'.bufferSize = ps.bufferSize := by
  obtain ⟨hsub, hfresh, _⟩ := subscribe_outcome ps wf hB
  have hother : ∀ k, k ≠ ps.chans.length →
      (ps.chans ++ [({ buf := [], cap := ps.bufferSize, closed := false } : Chan)])[k]?
        = ps.chans[k]? := by
    intro k hk
    rcases Nat.lt_or_ge k ps.chans.length with hl | hl
    · exact List.getElem?_append_left hl
    · rw [List.getElem?_eq_none (by simp; omega), List.getElem?_eq_none hl]
  refine ⟨ps.chans.length, _, hsub, hfresh, List.getElem?_eq_none (Nat.le_refl _), ?_, ?_, ?_,
    ?_, ?_, ?_, rfl, rfl⟩
  · intro ps0 ops returned hrun hm
    exact absurd ((run_returned_lt ops ps0 ps returned hrun).2 _ hm) (Nat.lt_irrefl _)
  · simp
  · simp
  · simp
  · intro k hk
    exact ⟨by simp [hk], hother k hk⟩
  · intro k hk
    have hne : k ≠ ps.chans.length := fun e => hfresh (e ▸ hk)
    exact ⟨by simp [hk], hother k hne⟩

theorem roomyService_wellFormed : roomyService.WellFormed := by
  refine ⟨by decide, ?_⟩
  intro h hh
  simp only [roomyService, List.mem_cons, List.mem_singleton, List.not_mem_nil,
    or_false] at hh
  rcases hh with rfl | rfl
  · exact ⟨{ buf := [], cap := 2, closed := false }, rfl, rfl⟩
  · exact ⟨{ buf := [btc 1 100], cap := 2, closed := false }, rfl, rfl⟩

theorem fullService_wellFormed : fullService.WellFormed := by
  refine ⟨by decide, ?_⟩
  intro h hh
  simp only [fullService, List.mem_cons, List.mem_singleton, List.not_mem_nil,
    or_false] at hh
  rcases hh with rfl | rfl
  · exact ⟨{ buf := [], cap := 2, closed := false }, rfl, rfl⟩
  · exact ⟨{ buf := [btc 1 100, btc 2 101], cap := 2, closed := false }, rfl, rfl⟩

theorem newPriceService_wellFormed (env : String → String) (storage : PriceStorage) :
    (NewPriceService env storage).WellFormed :=
  ⟨List.nodup_nil, fun k hk => by simp [NewPriceService] at hk⟩

theorem roomyService_room : ∀ h ∈ roomyService.clients, ∀ c, roomyService.chans[h]? = some c →
    c.cap = roomyService.bufferSize ∧ (c.buf.length : Int) < roomyService.bufferSize := by
  intro h hh c hc
  simp only [roomyService, List.mem_cons, List.mem_singleton, List.not_mem_nil,
    or_false] at hh
  rcases hh with rfl | rfl
  · simp [roomyService] at hc
    subst hc
    exact ⟨rfl, by decide⟩
  · simp [roomyService] at hc
    subst hc
    exact ⟨rfl, by decide⟩

/-- Witness for C6: two subscribers with room, one of them with an empty queue. -/
theorem broadcast_fans_out_witness :
    roomyService.WellFormed ∧
      (∀ h ∈ roomyService.clients, ∀ c, roomyService.chans[h]? = some c →
        c.cap = roomyService.bufferSize ∧ (c.buf.length : Int) < roomyService.bufferSize) ∧
      ∃ ps', roomyService.broadcastPrice (btc 2 101) = some ps' ∧
        ps'.clients = roomyService.clients ∧
        ∀ h ∈ roomyService.clients, ∃ c, roomyService.chans[h]? = some c ∧
          ps'.chans[h]? = some { c with buf := c.buf ++ [btc 2 101] } ∧
          (c.buf = [] → ∃ ps'', ps'.receive h = some (Recv.item (btc 2 101), ps'')) :=
  ⟨roomyService_wellFormed, roomyService_room,
    broadcast_fans_out roomyService roomyService_wellFormed (btc 2 101) roomyService_room⟩

/-- Witness for C7: subscriber 1 of `fullService` holds two items at capacity 2; and the
scenario from a new service whose environment sets the buffer size to 1. -/
theorem broadcast_evicts_full_witness :
    fullService.WellFormed ∧ 1 ∈ fullService.clients ∧
      fullService.chans[1]? = some { buf := [btc 1 100, btc 2 101], cap := 2, closed := false } ∧
      (∃ ps', fullService.broadcastPrice (btc 3 102) = some ps' ∧ 1 ∉ ps'.clients ∧
        ps'.chans[1]? = some { buf := [btc 1 100, btc 2 101], cap := 2, closed := true } ∧
        ∀ later : List PriceUpdate, ∃ ps'', ps'.broadcastAll later = some ps'' ∧
          ps''.chans[1]? = some { buf := [btc 1 100, btc 2 101], cap := 2, closed := true } ∧
          1 ∉ ps''.clients) ∧
      ∃ h1 p1 p2 p3, (NewPriceService envBufferOne storageTwo).Subscribe = some (h1, p1) ∧
        p1.clients = [h1] ∧ p1.broadcastPrice (btc 1 100) = some p2 ∧ p2.clients = [h1] ∧
        p2.chans[h1]? = some { buf := [btc 1 100], cap := 1, closed := false } ∧
        p2.broadcastPrice (btc 2 101) = some p3 ∧ p3.clients.length = 0 :=
  ⟨fullService_wellFormed, by decide, rfl,
    (broadcast_evicts_full fullService fullService_wellFormed 1
      { buf := [btc 1 100, btc 2 101], cap := 2, closed := false } (btc 3 102)
      (by decide) rfl (by decide)).1,
    (broadcast_evicts_full fullService fullService_wellFormed 1
      { buf := [btc 1 100, btc 2 101], cap := 2, closed := false } (btc 3 102)
      (by decide) rfl (by decide)).2 (NewPriceService envBufferOne storageTwo)
      (btc 1 100) (btc 2 101) (newPriceService_wellFormed _ _) rfl (by decide)⟩

/-- Witness for C8: a registered handle unsubscribed twice, and a handle evicted by a
broadcast and then unsubscribed. -/
theorem unsubscribe_idempotent_witness :
    roomyService.WellFormed ∧
      (∃ ps1, roomyService.Unsubscribe 1 = some ps1 ∧ ps1.Unsubscribe 1 = some ps1) ∧
      fullService.WellFormed ∧ 1 ∈ fullService.clients ∧ fullService.hasRoom 1 = false ∧
      ∃ ps', fullService.broadcastPrice (btc 3 102) = some ps' ∧ 1 ∉ ps'.clients ∧
        ps'.Unsubscribe 1 = some ps' :=
  ⟨roomyService_wellFormed,
    (unsubscribe_idempotent roomyService 1).2.2.1 roomyService_wellFormed,
    fullService_wellFormed, by decide, by decide,
    (unsubscribe_idempotent fullService 1).2.2.2 fullService_wellFormed (by decide)
      (by decide) (btc 3 102)⟩

/-- Witness for C9: subscriber 1 of `roomyService`, whose queue holds one item. -/
theorem unsubscribe_removes_and_closes_witness :
    roomyService.WellFormed ∧ 1 ∈ roomyService.clients ∧
      roomyService.chans[1]? = some { buf := [btc 1 100], cap := 2, closed := false } ∧
      ∃ ps', roomyService.Unsubscribe 1 = some ps' ∧ 1 ∉ ps'.clients ∧
        ps'.clients.length + 1 = roomyService.clients.length ∧
        ps'.chans[1]? = some { buf := [btc 1 100], cap := 2, closed := true } ∧
        (∀ k, k ≠ 1 → ((k ∈ ps'.clients ↔ k ∈ roomyService.clients) ∧
          ps'.chans[k]? = roomyService.chans[k]?)) ∧
        ps'.storage = roomyService.storage ∧ ps'.bufferSize = roomyService.bufferSize :=
  ⟨roomyService_wellFormed, by decide, rfl,
    unsubscribe_removes_and_closes roomyService roomyService_wellFormed 1
      { buf := [btc 1 100], cap := 2, closed := false } (by decide) rfl⟩

/-- Witness for C10: a third subscriber joins the two of `roomyService`. -/
theorem subscribe_registers_fresh_witness :
    roomyService.WellFormed ∧ 0 ≤ roomyService.bufferSize ∧
      ∃ h ps', roomyService.Subscribe = some (h, ps') ∧
        h ∉ roomyService.clients ∧ roomyService.chans[h]? = none ∧
        (∀ (ps0 : PriceService) (ops : List ServiceOp) (returned : List Nat),
          ps0.run ops = some (roomyService, returned) → h ∉ returned) ∧
        h ∈ ps'.clients ∧
        ps'.chans[h]? = some { buf := [], cap := roomyService.bufferSize, closed := false } ∧
        ps'.clients.length = roomyService.clients.length + 1 ∧
        (∀ k, k ≠ h → ((k ∈ ps'.clients ↔ k ∈ roomyService.clients) ∧
          ps'.chans[k]? = roomyService.chans[k]?)) ∧
        (∀ k ∈ roomyService.clients, k ∈ ps'.clients ∧
          ps'.chans[k]? = roomyService.chans[k]?) ∧
        ps'.storage = roomyService.storage ∧ ps'.bufferSize = roomyService.bufferSize :=
  ⟨roomyService_wellFormed, by decide,
    subscribe_registers_fresh roomyService roomyService_wellFormed (by decide)⟩

/-! ## Theorems: fields, construction and order of the ring buffer -/

/-- Claim C18 (fields after N Adds): for every capacity `C >= 1` and every `N >= 0`, the
`N` Adds on a fresh store all succeed and leave `size = min(N, C)`, `head = N mod C` and
`tail = (N - min(N, C)) mod C`; with no Add all three are 0, and for `C = 2`, `N = 3` this
is `size = 2`, `head = tail = 1`. -/
theorem fields_after_adds (C : Int) (hC : 1 ≤ C) (xs : List PriceUpdate) :
    (∃ ps, storeAfter C xs = some ps ∧
      ps.size = min (xs.length : Int) C ∧
      ps.head = (xs.length : Int) % C ∧
      ps.tail = ((xs.length : Int) - min (xs.length : Int) C) % C) ∧
    (∃ ps, storeAfter C [] = some ps ∧ ps.head = 0 ∧ ps.tail = 0 ∧ ps.size = 0) ∧
    (∀ a b c : PriceUpdate, ∃ ps, storeAfter 2 [a, b, c] = some ps ∧
      ps.size = 2 ∧ ps.head = 1 ∧ ps.tail = 1) := by
  have key : ∀ (D : Nat), 0 < D → ∀ ys : List PriceUpdate,
      ∃ ps, storeAfter (D : Int) ys = some ps ∧
        ps.size = min (ys.length : Int) (D : Int) ∧
        ps.head = (ys.length : Int) % (D : Int) ∧
        ps.tail = ((ys.length : Int) - min (ys.length : Int) (D : Int)) % (D : Int) := by
    intro D hD ys
    obtain ⟨ps, h1, hh⟩ := storeAfter_holds D hD ys
    refine ⟨ps, h1, ?_, ?_, ?_⟩
    · rw [hh.size]; push_cast; rfl
    · rw [hh.head]; push_cast; rfl
    · rw [hh.tail, Int.natCast_mod]
      congr 1
      omega
  lift C to ℕ using (by omega)
  refine ⟨key C (by omega) xs, ?_, ?_⟩
  · obtain ⟨ps, h1, h2, h3, h4⟩ := key C (by omega) []
    refine ⟨ps, h1, ?_, ?_, ?_⟩
    · simpa using h3
    · simpa using h4
    · rw [h2]; simp only [List.length_nil, Nat.cast_zero]; omega
  · intro a b c
    obtain ⟨ps, h1, h2, h3, h4⟩ := key 2 (by decide) [a, b, c]
    refine ⟨ps, h1, ?_, ?_, ?_⟩
    · rw [h2]; simp
    · rw [h3]; simp
    · rw [h4]; simp

/-- Witness for C18: capacity 2 and three Adds. -/
theorem fields_after_adds_witness :
    (1 : Int) ≤ 2 ∧
      ∃ ps, storeAfter 2 [btc 1 100, btc 2 101, btc 3 102] = some ps ∧
        ps.size = min (([btc 1 100, btc 2 101, btc 3 102]).length : Int) 2 ∧
        ps.head = (([btc 1 100, btc 2 101, btc 3 102]).length : Int) % 2 ∧
        ps.tail = ((([btc 1 100, btc 2 101, btc 3 102]).length : Int)
          - min (([btc 1 100, btc 2 101, btc 3 102]).length : Int) 2) % 2 :=
  ⟨by decide, (fields_after_adds 2 (by decide) [btc 1 100, btc 2 101, btc 3 102]).1⟩

/-- Counterexample to C13: two samples added with decreasing timestamps come back from both
range queries in insertion order, which is not ascending timestamp order. -/
theorem range_queries_not_ascending :
    ∃ ps, storeAfter 2 [btc 2 100, btc 1 101] = some ps ∧
      ps.GetAllUpdates = some [btc 2 100, btc 1 101] ∧
      ps.GetUpdatesSince 0 = some [btc 2 100, btc 1 101] ∧
      ¬ ascendingTimestamps [btc 2 100, btc 1 101] :=
  ⟨{ updates := [btc 2 100, btc 1 101], capacity := 2, head := 0, tail := 0, size := 2 },
    by decide, by decide, by decide, by
      intro h
      have := List.Chain'.rel_head h
      revert this
      decide⟩

theorem ascendingTimestamps_sublist {l₁ l₂ : List PriceUpdate} (hs : List.Sublist l₁ l₂)
    (h : ascendingTimestamps l₂) : ascendingTimestamps l₁ := by
  unfold ascendingTimestamps at *
  have htrans : ∀ a b c : PriceUpdate,
      a.Timestamp < b.Timestamp → b.Timestamp < c.Timestamp → a.Timestamp < c.Timestamp :=
    fun _ _ _ h1 h2 => Int.lt_trans h1 h2
  haveI : IsTrans PriceUpdate (fun a b => a.Timestamp < b.Timestamp) := ⟨htrans⟩
  exact (List.chain'_iff_pairwise.mpr ((List.chain'_iff_pairwise.mp h).sublist hs))

/-- Claim C13, amended: for every capacity `C >= 1`, every sequence of Adds on a fresh
store and every `t`, `GetAllUpdates` and `GetUpdatesSince t` return the retained samples in
insertion order; they are in strictly ascending timestamp order whenever the samples were
added with strictly ascending timestamps. -/
theorem range_queries_ascending_of_adds_ascending (C : Int) (hC : 1 ≤ C)
    (xs : List PriceUpdate) (t : Int) :
    ∃ ps all since, storeAfter C xs = some ps ∧
      ps.GetAllUpdates = some all ∧ ps.GetUpdatesSince t = some since ∧
      all = xs.drop (xs.length - C.toNat) ∧
      since = all.filter (fun u => decide (t < u.Timestamp)) ∧
      (ascendingTimestamps xs → ascendingTimestamps all ∧ ascendingTimestamps since) := by
  lift C to ℕ using (by omega)
  obtain ⟨ps, h1, hh⟩ := storeAfter_holds C (by omega) xs
  refine ⟨ps, _, _, h1, hh.getAllUpdates, hh.getUpdatesSince t, by simp, rfl, ?_⟩
  intro hasc
  have hall := ascendingTimestamps_sublist (List.drop_sublist (xs.length - C) xs) hasc
  exact ⟨hall, ascendingTimestamps_sublist (List.filter_sublist _) hall⟩

/-- Witness for C13 (amended): capacity 2 and three Adds with ascending timestamps. -/
theorem range_queries_ascending_of_adds_ascending_witness :
    (1 : Int) ≤ 2 ∧ ascendingTimestamps [btc 1 100, btc 2 101, btc 3 102] ∧
      ∃ ps all since, storeAfter 2 [btc 1 100, btc 2 101, btc 3 102] = some ps ∧
        ps.GetAllUpdates = some all ∧ ps.GetUpdatesSince 2 = some since ∧
        all = ([btc 1 100, btc 2 101, btc 3 102]).drop
          (([btc 1 100, btc 2 101, btc 3 102]).length - (2 : Int).toNat) ∧
        since = all.filter (fun u => decide ((2 : Int) < u.Timestamp)) ∧
        (ascendingTimestamps [btc 1 100, btc 2 101, btc 3 102] →
          ascendingTimestamps all ∧ ascendingTimestamps since) :=
  ⟨by decide, by simp [ascendingTimestamps, btc],
    range_queries_ascending_of_adds_ascending 2 (by decide)
      [btc 1 100, btc 2 101, btc 3 102] 2⟩

/-- Counterexample to C12: with capacity 0 `NewPriceStorage` does not fail; it returns a
store whose buffer is empty. -/
theorem newPriceStorage_zero_returns :
    NewPriceStorage 0 =
      some { updates := [], capacity := 0, head := 0, tail := 0, size := 0 } ∧
    NewPriceStorage 0 ≠ none :=
  ⟨by decide, by decide⟩

/-- Claim C12, amended: for every negative capacity `NewPriceStorage` fails at construction
time and returns no store; for capacity 0 it returns a store with an empty buffer, on
which every `Add` faults, so no sample is ever stored at zero or negative capacity; the
capacity `main` passes, `GetEnvInt("STORAGE_CAPACITY", 1000)`, is always positive. -/
theorem newPriceStorage_nonpositive (C : Int) (hC : C ≤ 0) :
    (C < 0 → NewPriceStorage C = none) ∧
    (C = 0 → ∃ ps, NewPriceStorage C = some ps ∧ ps.updates = [] ∧
      ∀ u, ps.Add u = none) ∧
    (∀ u, (NewPriceStorage C).bind (fun ps => ps.Add u) = none) ∧
    (∀ env : String → String, 0 < GetEnvInt env "STORAGE_CAPACITY" 1000) := by
  refine ⟨?_, ?_, ?_, ?_⟩
  · intro h
    simp [NewPriceStorage, makeSlice, h]
  · intro h
    subst h
    refine ⟨{ updates := [], capacity := 0, head := 0, tail := 0, size := 0 }, by decide,
      rfl, ?_⟩
    intro u
    simp [PriceStorage.Add, sliceSet]
  · intro u
    by_cases h : C < 0
    · simp [NewPriceStorage, makeSlice, h]
    · have h0 : C = 0 := by omega
      subst h0
      simp [NewPriceStorage, makeSlice, PriceStorage.Add, sliceSet]
  · intro env
    exact getEnvInt_pos env _ 1000 (by decide)

/-- Witness for C12 (amended): capacity `-1`. -/
theorem newPriceStorage_nonpositive_witness :
    (-1 : Int) ≤ 0 ∧ NewPriceStorage (-1) = none :=
  ⟨by decide, (newPriceStorage_nonpositive (-1) (by decide)).1 (by decide)⟩

/-! ## Theorems: environment parsing -/

theorem digitValue_digitChar (d : Fin 10) : digitValue (digitChar d) = some d.val := by
  revert d
  decide

theorem decimalValue_digits (ds : List (Fin 10)) :
    ∀ acc : Nat, decimalValue acc (ds.map digitChar)
      = some (ds.foldl (fun a d => a * 10 + d.val) acc) := by
  induction ds with
  | nil => intro acc; rfl
  | cons d ds ih =>
    intro acc
    simp only [List.map_cons, decimalValue, digitValue_digitChar, Option.some_bind,
      List.foldl_cons]
    exact ih _

theorem strconvAtoi_unsigned (c : Char) (cs : List Char) (h1 : c ≠ '-') (h2 : c ≠ '+') :
    strconvAtoi (String.mk (c :: cs))
      = (decimalValue 0 (c :: cs)).bind
          (fun n => if n < 2 ^ 63 then some (n : Int) else none) := by
  have hsigned : (match (String.mk (c :: cs)).toList with
      | '-' :: ds => ((true, ds) : Bool × List Char)
      | '+' :: ds => (false, ds)
      | ds => (false, ds)) = (false, c :: cs) := by
    show (match c :: cs with
      | '-' :: ds => ((true, ds) : Bool × List Char)
      | '+' :: ds => (false, ds)
      | ds => (false, ds)) = (false, c :: cs)
    split
    · rename_i heq; cases heq; exact absurd rfl h1
    · rename_i heq; cases heq; exact absurd rfl h2
    · rfl
  unfold strconvAtoi
  simp only [hsigned]
  simp

theorem digitChar_ne_sign (d : Fin 10) : digitChar d ≠ '-' ∧ digitChar d ≠ '+' := by
  revert d
  decide

theorem strconvAtoi_digits (ds : List (Fin 10)) (hne : ds ≠ [])
    (hlt : numeralValue ds < 2 ^ 63) :
    strconvAtoi (String.mk (ds.map digitChar)) = some (numeralValue ds : Int) := by
  cases ds with
  | nil => exact absurd rfl hne
  | cons d rest =>
    have hv := decimalValue_digits (d :: rest) 0
    simp only [List.map_cons] at hv ⊢
    rw [strconvAtoi_unsigned _ _ (digitChar_ne_sign d).1 (digitChar_ne_sign d).2, hv]
    simp only [Option.some_bind]
    exact if_pos hlt

/-- Claim C16 (GetEnvInt): `GetEnvInt(key, d)` returns `n` when the variable's value is
non-empty and `strconv.Atoi` parses it as an integer `n > 0`, in particular for every
decimal numeral of a positive value below `2^63`, and returns `d` in every other case:
unset or empty, not a number (`"not_a_number"`, `"3.14"`, `"abc123def"`), zero, or
negative. -/
theorem getEnvInt_parses_positive (env : String → String) (key : String) (d : Int) :
    (∀ n, env key ≠ "" → strconvAtoi (env key) = some n → 0 < n →
      GetEnvInt env key d = n) ∧
    ((¬ ∃ n, env key ≠ "" ∧ strconvAtoi (env key) = some n ∧ 0 < n) →
      GetEnvInt env key d = d) ∧
    (∀ ds : List (Fin 10), ds ≠ [] → 0 < numeralValue ds → numeralValue ds < 2 ^ 63 →
      env key = String.mk (ds.map digitChar) → GetEnvInt env key d = (numeralValue ds : Int)) ∧
    (∀ v ∈ ["", "not_a_number", "3.14", "abc123def", "0", "-5"], env key = v →
      GetEnvInt env key d = d) ∧
    (env key = "42" → GetEnvInt env key d = 42) ∧
    (env key = "999999999" → GetEnvInt env key d = 999999999) := by
  have hpos : ∀ n, env key ≠ "" → strconvAtoi (env key) = some n → 0 < n →
      GetEnvInt env key d = n := by
    intro n hne hp hn
    simp [GetEnvInt, hne, hp, hn]
  have hdef : (¬ ∃ n, env key ≠ "" ∧ strconvAtoi (env key) = some n ∧ 0 < n) →
      GetEnvInt env key d = d := by
    intro hno
    unfold GetEnvInt
    simp only
    split
    · rename_i hne
      split
      · rename_i n hp
        split
        · rename_i hn
          exact absurd ⟨n, hne, hp, hn⟩ hno
        · rfl
      · rfl
    · rfl
  refine ⟨hpos, hdef, ?_, ?_, ?_, ?_⟩
  · intro ds hne h0 hlt hv
    have hparse := strconvAtoi_digits ds hne hlt
    have hnonempty : env key ≠ "" := by
      rw [hv]
      cases ds with
      | nil => exact absurd rfl hne
      | cons e es =>
        intro h
        have := congrArg String.data h
        simp at this
    exact hpos _ hnonempty (by rw [hv]; exact hparse) (by exact_mod_cast h0)
  · intro v hv he
    apply hdef
    rintro ⟨n, hne, hp, hn⟩
    rw [he] at hne hp
    simp only [List.mem_cons, List.mem_singleton, List.not_mem_nil, or_false] at hv
    rcases hv with rfl | rfl | rfl | rfl | rfl | rfl
    · exact hne rfl
    · have : strconvAtoi "not_a_number" = none := by decide
      rw [this] at hp; cases hp
    · have : strconvAtoi "3.14" = none := by decide
      rw [this] at hp; cases hp
    · have : strconvAtoi "abc123def" = none := by decide
      rw [this] at hp; cases hp
    · have : strconvAtoi "0" = some 0 := by decide
      rw [this] at hp; cases hp; omega
    · have : strconvAtoi "-5" = some (-5) := by decide
      rw [this] at hp; cases hp; omega
  · intro he
    exact hpos 42 (by rw [he]; decide) (by rw [he]; decide) (by decide)
  · intro he
    exact hpos 999999999 (by rw [he]; decide) (by rw [he]; decide) (by decide)

/-- Witness for C16: the variable set to `"42"`, and an unset variable. -/
theorem getEnvInt_parses_positive_witness :
    GetEnvInt (fun key => if key = "TEST_INT" then "42" else "") "TEST_INT" 10 = 42 ∧
    GetEnvInt (fun key => if key = "TEST_INT" then "42" else "") "NON_EXISTENT" 10 = 10 :=
  ⟨(getEnvInt_parses_positive (fun key => if key = "TEST_INT" then "42" else "")
      "TEST_INT" 10).2.2.2.2.1 (by decide),
    (getEnvInt_parses_positive (fun key => if key = "TEST_INT" then "42" else "")
      "NON_EXISTENT" 10).2.2.2.1 "" (by decide) (by decide)⟩

/-! ## Theorems: invariants and traces of the service -/

theorem recv_snd_props (c : Chan) :
    (c.recv).2.closed = c.closed ∧ (c.recv).2.cap = c.cap ∧
      (c.recv).2.buf.length ≤ c.buf.length ∧ (c.recv).2.buf <:+ c.buf := by
  unfold Chan.recv
  split
  · rename_i v rest heq
    refine ⟨rfl, rfl, ?_, ?_⟩
    · simp [heq]
    · simp only [heq]; exact List.suffix_cons v rest
  · split
    · exact ⟨rfl, rfl, Nat.le_refl _, List.suffix_refl _⟩
    · exact ⟨rfl, rfl, Nat.le_refl _, List.suffix_refl _⟩

theorem step_bounded {ps ps' : PriceService} {op : ServiceOp} {r : Option Nat}
    (wf : ps.WellFormed) (hb : ps.Bounded) (h : ps.step op = some (ps', r)) :
    ps'.Bounded := by
  cases op with
  | subscribe =>
    have hB : 0 ≤ ps.bufferSize := by
      by_contra hneg
      have hneg' : ps.bufferSize < 0 := by omega
      simp [PriceService.step, PriceService.Subscribe, makeChan, hneg'] at h
    obtain ⟨hsub, hfresh, _⟩ := subscribe_outcome ps wf hB
    simp only [PriceService.step, hsub, Option.map_some', Option.some.injEq,
      Prod.mk.injEq] at h
    obtain ⟨h1, _⟩ := h
    subst h1
    intro k hk c hc
    simp only [List.mem_append, List.mem_singleton] at hk
    rcases hk with hk | hk
    · obtain ⟨c0, hc0, _⟩ := wf.live k hk
      simp only [List.getElem?_append_left (chans_lt_of_getElem hc0)] at hc
      exact hb k hk c hc
    · subst hk
      simp at hc
      subst hc
      exact ⟨rfl, by simpa using hB⟩
  | unsubscribe k =>
    by_cases hk : k ∈ ps.clients
    · obtain ⟨c0, hc0, _⟩ := wf.live k hk
      obtain ⟨hun, _⟩ := unsubscribe_outcome ps wf k hk c0 hc0
      simp only [PriceService.step, hun, Option.map_some', Option.some.injEq,
        Prod.mk.injEq] at h
      obtain ⟨h1, _⟩ := h
      subst h1
      intro j hj c hc
      simp only [mapDelete, List.mem_filter, decide_eq_true_eq] at hj
      simp only [List.getElem?_set_ne (Ne.symm hj.2)] at hc
      exact hb j hj.1 c hc
    · simp only [PriceService.step, unsubscribe_unregistered ps k hk, Option.map_some',
        Option.some.injEq, Prod.mk.injEq] at h
      obtain ⟨h1, _⟩ := h
      subst h1
      exact hb
  | broadcast s =>
    obtain ⟨p, hrun, _, _, hbs, _, hcl, _, hupd, _⟩ := broadcastPrice_outcome ps wf s
    simp only [PriceService.step, hrun, Option.map_some', Option.some.injEq,
      Prod.mk.injEq] at h
    obtain ⟨h1, _⟩ := h
    subst h1
    intro j hj c hc
    rw [hcl] at hj
    obtain ⟨hj1, hj2⟩ := List.mem_filter.mp hj
    obtain ⟨c0, hc0, _⟩ := wf.live j hj1
    rw [hupd j hj1 c0 hc0] at hc
    cases hc
    have hr : (c0.buf.length : Int) < c0.cap := by
      simpa [PriceService.hasRoom, hc0] using hj2
    obtain ⟨hcap, _⟩ := hb j hj1 c0 hc0
    rw [hbs]
    simp only [Chan.afterBroadcast, if_pos hr, List.length_append, List.length_singleton]
    refine ⟨hcap, ?_⟩
    push_cast
    omega
  | receive k =>
    cases hc : ps.chans[k]? with
    | none => simp [PriceService.step, PriceService.receive, hc] at h
    | some c0 =>
      obtain ⟨hrc, _⟩ := receive_outcome ps wf k c0 hc
      simp only [PriceService.step, hrc, Option.map_some', Option.some.injEq,
        Prod.mk.injEq] at h
      obtain ⟨h1, _⟩ := h
      subst h1
      intro j hj c hcj
      by_cases e : j = k
      · subst e
        simp [List.getElem?_set, chans_lt_of_getElem hc] at hcj
        subst hcj
        obtain ⟨hcap, hlen⟩ := hb j hj c0 hc
        obtain ⟨_, h2, h3, _⟩ := recv_snd_props c0
        refine ⟨by rw [h2]; exact hcap, ?_⟩
        have : ((c0.recv).2.buf.length : Int) ≤ (c0.buf.length : Int) := by exact_mod_cast h3
        exact le_trans this hlen
      · simp only [List.getElem?_set_ne (Ne.symm e)] at hcj
        exact hb j hj c hcj

theorem run_bounded (ops : List ServiceOp) :
    ∀ (ps0 ps : PriceService) (returned : List Nat), ps0.WellFormed → ps0.Bounded →
      ps0.run ops = some (ps, returned) → ps.Bounded := by
  induction ops with
  | nil =>
    intro ps0 ps returned _ hb h
    simp [PriceService.run] at h
    obtain ⟨h1, _⟩ := h
    subst h1
    exact hb
  | cons op ops ih =>
    intro ps0 ps returned wf hb h
    simp only [PriceService.run] at h
    cases hs : ps0.step op with
    | none => simp [hs] at h
    | some r =>
      obtain ⟨ps1, r1⟩ := r
      simp only [hs, Option.some_bind] at h
      cases hr : ps1.run ops with
      | none => simp [hr] at h
      | some q =>
        obtain ⟨ps2, ret2⟩ := q
        simp [hr] at h
        obtain ⟨h1, _⟩ := h
        subst h1
        exact ih ps1 ps2 ret2 (step_wellFormed wf hs).1 (step_bounded wf hb hs) hr

/-- Claim C11 (map invariant): in every state reached from `NewPriceService` by any
sequence of `Subscribe`, `Unsubscribe`, `broadcastPrice` and consumer receives, every
handle in the clients map names an open queue of capacity `bufferSize` holding at most
`bufferSize` items, no closed queue is in the map, and therefore every `broadcastPrice`
returns without a send on a closed queue. -/
theorem registered_queues_open (env : String → String) (storage : PriceStorage)
    (ops : List ServiceOp) (ps : PriceService) (returned : List Nat)
    (h : (NewPriceService env storage).run ops = some (ps, returned)) :
    (∀ k ∈ ps.clients, ∃ c, ps.chans[k]? = some c ∧ c.closed = false ∧
      c.cap = ps.bufferSize ∧ (c.buf.length : Int) ≤ ps.bufferSize) ∧
    (∀ k c, ps.chans[k]? = some c → c.closed = true → k ∉ ps.clients) ∧
    (∀ s, ∃ ps', ps.broadcastPrice s = some ps') := by
  have wf0 := newPriceService_wellFormed env storage
  have hb0 : (NewPriceService env storage).Bounded := by
    intro k hk
    simp [NewPriceService] at hk
  obtain ⟨wf, _⟩ := run_wellFormed ops _ ps returned wf0 h
  have hb := run_bounded ops _ ps returned wf0 hb0 h
  refine ⟨?_, ?_, ?_⟩
  · intro k hk
    obtain ⟨c, hc, ho⟩ := wf.live k hk
    obtain ⟨h1, h2⟩ := hb k hk c hc
    exact ⟨c, hc, ho, h1, h2⟩
  · intro k c hc hcl hk
    obtain ⟨c', hc', ho⟩ := wf.live k hk
    rw [hc] at hc'
    cases hc'
    rw [hcl] at ho
    cases ho
  · intro s
    obtain ⟨ps', hrun, _⟩ := broadcastPrice_outcome ps wf s
    exact ⟨ps', hrun⟩

/-- Witness for C11: a subscriber joins a new service with buffer size 1, two samples are
broadcast, and the evicted handle is unsubscribed. -/
theorem registered_queues_open_witness :
    (NewPriceService envBufferOne storageTwo).run
        [ServiceOp.subscribe, ServiceOp.broadcast (btc 1 100),
          ServiceOp.broadcast (btc 2 101), ServiceOp.unsubscribe 0]
      = some ({ storage := storageTwo
                chans := [{ buf := [btc 1 100], cap := 1, closed := true }]
                clients := []
                apiURL := "https://data-api.coindesk.com/asset/v1/top/list"
                bufferSize := 1 }, [0]) ∧
    ∀ s, ∃ ps', PriceService.broadcastPrice
        { storage := storageTwo
          chans := [{ buf := [btc 1 100], cap := 1, closed := true }]
          clients := []
          apiURL := "https://data-api.coindesk.com/asset/v1/top/list"
          bufferSize := 1 } s = some ps' :=
  ⟨by decide,
    (registered_queues_open envBufferOne storageTwo
      [ServiceOp.subscribe, ServiceOp.broadcast (btc 1 100),
        ServiceOp.broadcast (btc 2 101), ServiceOp.unsubscribe 0] _ [0] (by decide)).2.2⟩

theorem priceService_ext {p q : PriceService} (h1 : p.storage = q.storage)
    (h2 : p.chans = q.chans) (h3 : p.clients = q.clients) (h4 : p.apiURL = q.apiURL)
    (h5 : p.bufferSize = q.bufferSize) : p = q := by
  cases p
  cases q
  simp only at h1 h2 h3 h4 h5
  subst h1 h2 h3 h4 h5
  rfl

/-- Claim C19 (order independence): in a well-formed service with any mix of full and
non-full registered queues, visiting the subscribers in any order `order` (a permutation
of the map keys) gives the same state as `broadcastPrice s`; each subscriber's outcome is
decided by its own queue alone: with room, `s` is appended and the handle stays
registered; at capacity, the handle is removed and the queue closed with its items as
they were; queues of unregistered handles are not touched. -/
theorem broadcast_order_independent (ps : PriceService) (wf : ps.WellFormed)
    (s : PriceUpdate) (order : List Nat) (hperm : List.Perm order ps.clients) :
    PriceService.broadcastPrice.loop s order ps = ps.broadcastPrice s ∧
    ∃ ps', ps.broadcastPrice s = some ps' ∧
      (∀ h ∈ ps.clients, ∃ c, ps.chans[h]? = some c ∧
        ((c.buf.length : Int) < c.cap →
          h ∈ ps'.clients ∧ ps'.chans[h]? = some { c with buf := c.buf ++ [s] }) ∧
        (¬ (c.buf.length : Int) < c.cap →
          h ∉ ps'.clients ∧ ps'.chans[h]? = some { c with closed := true })) ∧
      (∀ k, k ∉ ps.clients → ps'.chans[k]? = ps.chans[k]?) := by
  have hnd : order.Nodup := hperm.nodup_iff.mpr wf.nodup
  have hlive : ∀ h ∈ order, ∃ c, ps.chans[h]? = some c ∧ c.closed = false :=
    fun h hh => wf.live h (hperm.mem_iff.mp hh)
  obtain ⟨p1, hrun1, hst1, hurl1, hbs1, hlen1, hcl1, hframe1, hupd1⟩ :=
    broadcast_loop_outcome s order ps hnd hlive
  obtain ⟨p2, hrun2, hst2, hurl2, hbs2, hlen2, hcl2, hframe2, hupd2, _⟩ :=
    broadcastPrice_outcome ps wf s
  have heq : p1 = p2 := by
    apply priceService_ext
    · rw [hst1, hst2]
    · apply List.ext_getElem?
      intro k
      by_cases hk : k ∈ ps.clients
      · obtain ⟨c, hc, _⟩ := wf.live k hk
        rw [hupd1 k (hperm.mem_iff.mpr hk) c hc, hupd2 k hk c hc]
      · rw [hframe1 k (fun hm => hk (hperm.mem_iff.mp hm)), hframe2 k hk]
    · rw [hcl1, hcl2]
      apply List.filter_congr
      intro k hk
      simp [hperm.mem_iff.mpr hk]
    · rw [hurl1, hurl2]
    · rw [hbs1, hbs2]
  refine ⟨by rw [hrun1, hrun2, heq], p2, hrun2, ?_, hframe2⟩
  intro h hh
  obtain ⟨c, hc, _⟩ := wf.live h hh
  refine ⟨c, hc, ?_, ?_⟩
  · intro hr
    refine ⟨?_, ?_⟩
    · rw [hcl2]
      exact List.mem_filter.mpr ⟨hh, by simp [PriceService.hasRoom, hc, hr]⟩
    · rw [hupd2 h hh c hc]; simp [Chan.afterBroadcast, hr]
  · intro hr
    refine ⟨?_, ?_⟩
    · rw [hcl2]
      intro hm
      have := (List.mem_filter.mp hm).2
      simp [PriceService.hasRoom, hc, hr] at this
    · rw [hupd2 h hh c hc]; simp [Chan.afterBroadcast, hr]

/-- Witness for C19: the two subscribers of `fullService`, one with room and one full,
visited in the reverse order. -/
theorem broadcast_order_independent_witness :
    fullService.WellFormed ∧ List.Perm [1, 0] fullService.clients ∧
      PriceService.broadcastPrice.loop (btc 3 102) [1, 0] fullService
        = fullService.broadcastPrice (btc 3 102) ∧
      fullService.broadcastPrice (btc 3 102) = some
        { storage := storageTwo
          chans := [{ buf := [btc 3 102], cap := 2, closed := false },
                    { buf := [btc 1 100, btc 2 101], cap := 2, closed := true }]
          clients := [0]
          apiURL := "https://data-api.coindesk.com/asset/v1/top/list"
          bufferSize := 2 } :=
  ⟨fullService_wellFormed, List.Perm.swap 0 1 [],
    (broadcast_order_independent fullService fullService_wellFormed (btc 3 102) [1, 0]
      (List.Perm.swap 0 1 [])).1, by decide⟩

theorem step_unregistered {ps ps' : PriceService} {op : ServiceOp} {r : Option Nat}
    (wf : ps.WellFormed) (h : Nat) (c : Chan) (hc : ps.chans[h]? = some c)
    (hn : h ∉ ps.clients) (hs : ps.step op = some (ps', r)) :
    h ∉ ps'.clients ∧ (∀ k ∈ r, k ≠ h) ∧ ∃ c', ps'.chans[h]? = some c' ∧
      c'.closed = c.closed ∧ c'.cap = c.cap ∧ c'.buf <:+ c.buf ∧
      (op ≠ ServiceOp.receive h → c' = c) := by
  have hlt := chans_lt_of_getElem hc
  cases op with
  | subscribe =>
    have hB : 0 ≤ ps.bufferSize := by
      by_contra hneg
      have hneg' : ps.bufferSize < 0 := by omega
      simp [PriceService.step, PriceService.Subscribe, makeChan, hneg'] at hs
    obtain ⟨hsub, _, _⟩ := subscribe_outcome ps wf hB
    simp only [PriceService.step, hsub, Option.map_some', Option.some.injEq,
      Prod.mk.injEq] at hs
    obtain ⟨h1, h2⟩ := hs
    subst h1 h2
    refine ⟨?_, ?_, c, ?_, rfl, rfl, List.suffix_refl _, fun _ => rfl⟩
    · simp only [List.mem_append, List.mem_singleton, not_or]
      exact ⟨hn, by omega⟩
    · intro k hk
      simp only [Option.mem_def, Option.some.injEq] at hk
      omega
    · simp only [List.getElem?_append_left hlt]
      exact hc
  | unsubscribe k =>
    by_cases hk : k ∈ ps.clients
    · obtain ⟨c0, hc0, _⟩ := wf.live k hk
      obtain ⟨hun, _⟩ := unsubscribe_outcome ps wf k hk c0 hc0
      simp only [PriceService.step, hun, Option.map_some', Option.some.injEq,
        Prod.mk.injEq] at hs
      obtain ⟨h1, h2⟩ := hs
      subst h1 h2
      have hne : k ≠ h := fun e => hn (e ▸ hk)
      refine ⟨?_, by simp, c, ?_, rfl, rfl, List.suffix_refl _, fun _ => rfl⟩
      · intro hm
        simp only [mapDelete, List.mem_filter] at hm
        exact hn hm.1
      · simp only [List.getElem?_set_ne hne]
        exact hc
    · simp only [PriceService.step, unsubscribe_unregistered ps k hk, Option.map_some',
        Option.some.injEq, Prod.mk.injEq] at hs
      obtain ⟨h1, h2⟩ := hs
      subst h1 h2
      exact ⟨hn, by simp, c, hc, rfl, rfl, List.suffix_refl _, fun _ => rfl⟩
  | broadcast s =>
    obtain ⟨p, hrun, _, _, _, _, hcl, hframe, _, _⟩ := broadcastPrice_outcome ps wf s
    simp only [PriceService.step, hrun, Option.map_some', Option.some.injEq,
      Prod.mk.injEq] at hs
    obtain ⟨h1, h2⟩ := hs
    subst h1 h2
    refine ⟨?_, by simp, c, ?_, rfl, rfl, List.suffix_refl _, fun _ => rfl⟩
    · rw [hcl]
      exact fun hm => hn (List.mem_filter.mp hm).1
    · rw [hframe h hn]
      exact hc
  | receive k =>
    cases hck : ps.chans[k]? with
    | none => simp [PriceService.step, PriceService.receive, hck] at hs
    | some c0 =>
      obtain ⟨hrc, _⟩ := receive_outcome ps wf k c0 hck
      simp only [PriceService.step, hrc, Option.map_some', Option.some.injEq,
        Prod.mk.injEq] at hs
      obtain ⟨h1, h2⟩ := hs
      subst h1 h2
      by_cases e : k = h
      · subst e
        rw [hc] at hck
        cases hck
        obtain ⟨p1, p2, _, p4⟩ := recv_snd_props c
        exact ⟨hn, by simp, (c.recv).2, by simp [List.getElem?_set, hlt], p1, p2, p4,
          fun hne => absurd rfl hne⟩
      · refine ⟨hn, by simp, c, ?_, rfl, rfl, List.suffix_refl _, fun _ => rfl⟩
        simp only [List.getElem?_set_ne e]
        exact hc

theorem run_unregistered (h : Nat) (ops : List ServiceOp) :
    ∀ (ps ps' : PriceService) (returned : List Nat) (c : Chan), ps.WellFormed →
      ps.chans[h]? = some c → h ∉ ps.clients → ps.run ops = some (ps', returned) →
      h ∉ ps'.clients ∧ h ∉ returned ∧ ∃ c', ps'.chans[h]? = some c' ∧
        c'.closed = c.closed ∧ c'.cap = c.cap ∧ c'.buf <:+ c.buf ∧
        ((∀ op ∈ ops, op ≠ ServiceOp.receive h) → c' = c) := by
  induction ops with
  | nil =>
    intro ps ps' returned c _ hc hn hrun
    simp [PriceService.run] at hrun
    obtain ⟨h1, h2⟩ := hrun
    subst h1 h2
    exact ⟨hn, by simp, c, hc, rfl, rfl, List.suffix_refl _, fun _ => rfl⟩
  | cons op ops ih =>
    intro ps ps' returned c wf hc hn hrun
    simp only [PriceService.run] at hrun
    cases hs : ps.step op with
    | none => simp [hs] at hrun
    | some r =>
      obtain ⟨ps1, r1⟩ := r
      simp only [hs, Option.some_bind] at hrun
      cases hr : ps1.run ops with
      | none => simp [hr] at hrun
      | some q =>
        obtain ⟨ps2, ret2⟩ := q
        simp [hr] at hrun
        obtain ⟨h1, h2⟩ := hrun
        subst h1 h2
        obtain ⟨hn1, hret1, c1, hc1, hcl1, hcap1, hsuf1, heq1⟩ :=
          step_unregistered wf h c hc hn hs
        obtain ⟨hn2, hret2, c2, hc2, hcl2, hcap2, hsuf2, heq2⟩ :=
          ih ps1 ps2 ret2 c1 (step_wellFormed wf hs).1 hc1 hn1 hr
        refine ⟨hn2, ?_, c2, hc2, by rw [hcl2, hcl1], by rw [hcap2, hcap1],
          hsuf2.trans hsuf1, ?_⟩
        · simp only [List.mem_append, Option.mem_toList, not_or]
          exact ⟨fun hm => hret1 h hm rfl, hret2⟩
        · intro hall
          rw [heq2 (fun o ho => hall o (List.mem_cons_of_mem _ ho)),
            heq1 (hall op (List.mem_cons_self _ _))]

/-- Claim C20 (no way back): in a well-formed service, a handle whose queue exists and
which is not in the clients map (it left by `Unsubscribe` or by eviction) is, after any
later sequence of calls, still not in the map and never returned by `Subscribe` again;
its queue keeps its closed flag and its capacity and gains no item: consumer receives may
only take items from its front, and under `Subscribe`, `Unsubscribe` and `broadcastPrice`
calls alone the queue is exactly as it was. -/
theorem removed_handle_stays_removed (ps : PriceService) (wf : ps.WellFormed) (h : Nat)
    (c : Chan) (hc : ps.chans[h]? = some c) (hn : h ∉ ps.clients) (ops : List ServiceOp)
    (ps' : PriceService) (returned : List Nat) (hrun : ps.run ops = some (ps', returned)) :
    h ∉ ps'.clients ∧ h ∉ returned ∧ ∃ c', ps'.chans[h]? = some c' ∧
      c'.closed = c.closed ∧ c'.cap = c.cap ∧ c'.buf <:+ c.buf ∧
      ((∀ op ∈ ops, op ≠ ServiceOp.receive h) → c' = c) :=
  run_unregistered h ops ps ps' returned c wf hc hn hrun

/-- Witness for C20: the evicted queue 0 of `evictedService` across a `Subscribe`, two
broadcasts and an `Unsubscribe`. -/
theorem removed_handle_stays_removed_witness :
    evictedService.WellFormed ∧
      evictedService.chans[0]? = some { buf := [btc 1 100], cap := 1, closed := true } ∧
      0 ∉ evictedService.clients ∧
      evictedService.run [ServiceOp.subscribe, ServiceOp.broadcast (btc 2 101),
          ServiceOp.unsubscribe 0, ServiceOp.broadcast (btc 3 102)]
        = some ({ storage := storageTwo
                  chans := [{ buf := [btc 1 100], cap := 1, closed := true },
                            { buf := [btc 2 101], cap := 1, closed := true }]
                  clients := []
                  apiURL := "https://data-api.coindesk.com/asset/v1/top/list"
                  bufferSize := 1 }, [1]) ∧
      (0 ∉ ([] : List Nat) ∧ 0 ∉ [1] ∧ ∃ c',
        ([({ buf := [btc 1 100], cap := 1, closed := true } : Chan),
          { buf := [btc 2 101], cap := 1, closed := true }])[0]? = some c' ∧
        c'.closed = true ∧ c'.cap = 1 ∧ c'.buf <:+ [btc 1 100] ∧
        ((∀ op ∈ [ServiceOp.subscribe, ServiceOp.broadcast (btc 2 101),
            ServiceOp.unsubscribe 0, ServiceOp.broadcast (btc 3 102)],
          op ≠ ServiceOp.receive 0) →
          c' = { buf := [btc 1 100], cap := 1, closed := true })) :=
  ⟨⟨List.nodup_nil, fun k hk => by simp [evictedService] at hk⟩, rfl, by decide, by decide,
    removed_handle_stays_removed evictedService
      ⟨List.nodup_nil, fun k hk => by simp [evictedService] at hk⟩ 0
      { buf := [btc 1 100], cap := 1, closed := true } rfl (by decide)
      [ServiceOp.subscribe, ServiceOp.broadcast (btc 2 101), ServiceOp.unsubscribe 0,
        ServiceOp.broadcast (btc 3 102)]
      { storage := storageTwo
        chans := [{ buf := [btc 1 100], cap := 1, closed := true },
                  { buf := [btc 2 101], cap := 1, closed := true }]
        clients := []
        apiURL := "https://data-api.coindesk.com/asset/v1/top/list"
        bufferSize := 1 } [1] (by decide)⟩

theorem runReceived_run (h : Nat) (ops : List ServiceOp) :
    ∀ (ps ps' : PriceService) (got : List PriceUpdate),
      ps.runReceived h ops = some (ps', got) → ∃ returned, ps.run ops = some (ps', returned) := by
  induction ops with
  | nil =>
    intro ps ps' got hrun
    simp [PriceService.runReceived] at hrun
    exact ⟨[], by simp [PriceService.run, hrun.1]⟩
  | cons op ops ih =>
    intro ps ps' got hrun
    simp only [PriceService.runReceived] at hrun
    cases hs : ps.step op with
    | none => simp [hs] at hrun
    | some r =>
      obtain ⟨ps1, r1⟩ := r
      simp only [hs, Option.some_bind] at hrun
      cases hr : ps1.runReceived h ops with
      | none => simp [hr] at hrun
      | some q =>
        obtain ⟨ps2, got2⟩ := q
        simp [hr] at hrun
        obtain ⟨h1, _⟩ := hrun
        subst h1
        obtain ⟨ret, hret⟩ := ih ps1 ps2 got2 hr
        exact ⟨r1.toList ++ ret, by simp [PriceService.run, hs, hret]⟩

theorem broadcastSamples_cons (op : ServiceOp) (ops : List ServiceOp) :
    broadcastSamples (op :: ops) = broadcastSamples [op] ++ broadcastSamples ops := by
  cases op <;> rfl

theorem recv_cases (c : Chan) :
    (∃ v rest, c.buf = v :: rest ∧
      c.recv = (Recv.item v, { buf := rest, cap := c.cap, closed := c.closed })) ∨
    (c.buf = [] ∧ (c.recv).2 = c ∧ ∀ v, (c.recv).1 ≠ Recv.item v) := by
  cases hbuf : c.buf with
  | nil =>
    right
    refine ⟨rfl, ?_, ?_⟩
    · unfold Chan.recv
      rw [hbuf]
      simp only
      split <;> rfl
    · intro v
      unfold Chan.recv
      rw [hbuf]
      simp only
      split <;> simp
  | cons v rest =>
    left
    exact ⟨v, rest, rfl, by unfold Chan.recv; rw [hbuf]⟩

theorem step_registered {ps ps1 : PriceService} {op : ServiceOp} {r : Option Nat}
    (wf : ps.WellFormed) (h : Nat) (c0 : Chan) (hreg : h ∈ ps.clients)
    (hc : ps.chans[h]? = some c0) (hs : ps.step op = some (ps1, r))
    (hstay : h ∈ ps1.clients) :
    ∃ c1, ps1.chans[h]? = some c1 ∧
      ps.received h op ++ c1.buf = c0.buf ++ broadcastSamples [op] := by
  have hlt := chans_lt_of_getElem hc
  cases op with
  | subscribe =>
    have hB : 0 ≤ ps.bufferSize := by
      by_contra hneg
      have hneg' : ps.bufferSize < 0 := by omega
      simp [PriceService.step, PriceService.Subscribe, makeChan, hneg'] at hs
    obtain ⟨hsub, _, _⟩ := subscribe_outcome ps wf hB
    simp only [PriceService.step, hsub, Option.map_some', Option.some.injEq,
      Prod.mk.injEq] at hs
    obtain ⟨h1, _⟩ := hs
    subst h1
    refine ⟨c0, ?_, by simp [PriceService.received, broadcastSamples]⟩
    simp only [List.getElem?_append_left hlt]
    exact hc
  | unsubscribe k =>
    by_cases hk : k ∈ ps.clients
    · obtain ⟨ck, hck, _⟩ := wf.live k hk
      obtain ⟨hun, _⟩ := unsubscribe_outcome ps wf k hk ck hck
      simp only [PriceService.step, hun, Option.map_some', Option.some.injEq,
        Prod.mk.injEq] at hs
      obtain ⟨h1, _⟩ := hs
      subst h1
      have hne : k ≠ h := by
        intro e
        subst e
        exact not_mem_mapDelete _ _ hstay
      refine ⟨c0, ?_, by simp [PriceService.received, broadcastSamples]⟩
      simp only [List.getElem?_set_ne hne]
      exact hc
    · simp only [PriceService.step, unsubscribe_unregistered ps k hk, Option.map_some',
        Option.some.injEq, Prod.mk.injEq] at hs
      obtain ⟨h1, _⟩ := hs
      subst h1
      exact ⟨c0, hc, by simp [PriceService.received, broadcastSamples]⟩
  | broadcast s =>
    obtain ⟨p, hrun, _, _, _, _, hcl, _, hupd, _⟩ := broadcastPrice_outcome ps wf s
    simp only [PriceService.step, hrun, Option.map_some', Option.some.injEq,
      Prod.mk.injEq] at hs
    obtain ⟨h1, _⟩ := hs
    subst h1
    rw [hcl] at hstay
    have hr : (c0.buf.length : Int) < c0.cap := by
      simpa [PriceService.hasRoom, hc] using (List.mem_filter.mp hstay).2
    refine ⟨c0.afterBroadcast s, hupd h hreg c0 hc, ?_⟩
    simp [PriceService.received, broadcastSamples, Chan.afterBroadcast, hr]
  | receive k =>
    cases hck : ps.chans[k]? with
    | none => simp [PriceService.step, PriceService.receive, hck] at hs
    | some ck =>
      obtain ⟨hrc, _⟩ := receive_outcome ps wf k ck hck
      simp only [PriceService.step, hrc, Option.map_some', Option.some.injEq,
        Prod.mk.injEq] at hs
      obtain ⟨h1, _⟩ := hs
      subst h1
      by_cases e : k = h
      · subst e
        rw [hc] at hck
        cases hck
        refine ⟨(c0.recv).2, by simp [List.getElem?_set, hlt], ?_⟩
        simp only [PriceService.received, if_true, hrc, broadcastSamples,
          List.append_nil]
        rcases recv_cases c0 with ⟨v, rest, hbuf, hrv⟩ | ⟨hbuf, hsnd, hfst⟩
        · rw [hrv, hbuf]
          rfl
        · rw [hsnd]
          cases hf : (c0.recv).1 with
          | item v => exact absurd hf (hfst v)
          | closed => simp
          | blocked => simp
      · refine ⟨c0, ?_, by simp [PriceService.received, e, broadcastSamples]⟩
        simp only [List.getElem?_set_ne e]
        exact hc

theorem runReceived_registered (h : Nat) (ops : List ServiceOp) :
    ∀ (ps ps' : PriceService) (got : List PriceUpdate) (c0 : Chan), ps.WellFormed →
      h ∈ ps.clients → ps.chans[h]? = some c0 →
      ps.runReceived h ops = some (ps', got) → h ∈ ps'.clients →
      ps'.WellFormed ∧ ∃ c', ps'.chans[h]? = some c' ∧
        got ++ c'.buf = c0.buf ++ broadcastSamples ops := by
  induction ops with
  | nil =>
    intro ps ps' got c0 wf _ hc hrun _
    simp [PriceService.runReceived] at hrun
    obtain ⟨h1, h2⟩ := hrun
    subst h1 h2
    exact ⟨wf, c0, hc, by simp [broadcastSamples]⟩
  | cons op ops ih =>
    intro ps ps' got c0 wf hreg hc hrun hstay
    simp only [PriceService.runReceived] at hrun
    cases hs : ps.step op with
    | none => simp [hs] at hrun
    | some r =>
      obtain ⟨ps1, r1⟩ := r
      simp only [hs, Option.some_bind] at hrun
      cases hr : ps1.runReceived h ops with
      | none => simp [hr] at hrun
      | some q =>
        obtain ⟨ps2, got2⟩ := q
        simp [hr] at hrun
        obtain ⟨h1, h2⟩ := hrun
        subst h1 h2
        have wf1 := (step_wellFormed wf hs).1
        have hreg1 : h ∈ ps1.clients := by
          by_contra hn1
          have hlt1 : h < ps1.chans.length :=
            Nat.lt_of_lt_of_le (chans_lt_of_getElem hc) (step_chans_length hs).1
          obtain ⟨ret, hret⟩ := runReceived_run h ops ps1 ps2 got2 hr
          exact (run_unregistered h ops ps1 ps2 ret _ wf1
            (List.getElem?_eq_getElem hlt1) hn1 hret).1 hstay
        obtain ⟨c1, hc1, hstep⟩ := step_registered wf h c0 hreg hc hs hreg1
        obtain ⟨wf2, c2, hc2, hrest⟩ := ih ps1 ps2 got2 c1 wf1 hreg1 hc1 hr hstay
        refine ⟨wf2, c2, hc2, ?_⟩
        rw [broadcastSamples_cons, List.append_assoc, hrest, ← List.append_assoc, hstep,
          List.append_assoc]

/-- Claim C14 (FIFO per queue): in a well-formed service, for a registered handle `h`
that is still registered after a sequence of calls (a removed handle is never registered
again, so `h` stayed registered throughout), the items the consumer of `h` received
during the sequence, followed by the items still queued, are the items queued at the
start followed by the samples passed to `broadcastPrice`, in call order, each exactly
once; from an empty queue the received items are a prefix of the broadcast samples, and
the next receive yields the oldest queued item. -/
theorem fifo_delivery (ps : PriceService) (wf : ps.WellFormed) (h : Nat) (c0 : Chan)
    (hreg : h ∈ ps.clients) (hc : ps.chans[h]? = some c0) (ops : List ServiceOp)
    (ps' : PriceService) (got : List PriceUpdate)
    (hrun : ps.runReceived h ops = some (ps', got)) (hstay : h ∈ ps'.clients) :
    ∃ c', ps'.chans[h]? = some c' ∧
      got ++ c'.buf = c0.buf ++ broadcastSamples ops ∧
      (c0.buf = [] → got <+: broadcastSamples ops) ∧
      (∀ v rest, c'.buf = v :: rest → ∃ ps'', ps'.receive h = some (Recv.item v, ps'')) := by
  obtain ⟨wf', c', hc', heq⟩ := runReceived_registered h ops ps ps' got c0 wf hreg hc hrun hstay
  refine ⟨c', hc', heq, ?_, ?_⟩
  · intro hempty
    rw [hempty, List.nil_append] at heq
    exact ⟨c'.buf, heq⟩
  · intro v rest hbuf
    obtain ⟨hrc, _⟩ := receive_outcome ps' wf' h c' hc'
    rcases recv_cases c' with ⟨v', rest', hbuf', hrv⟩ | ⟨hbuf', _, _⟩
    · rw [hbuf] at hbuf'
      cases hbuf'
      rw [hrv] at hrc
      exact ⟨_, hrc⟩
    · rw [hbuf] at hbuf'
      cases hbuf'

/-- Witness for C14: subscriber 0 of `roomyService` across three broadcasts and one
receive. -/
theorem fifo_delivery_witness :
    roomyService.WellFormed ∧ 0 ∈ roomyService.clients ∧
      roomyService.chans[0]? = some { buf := [], cap := 2, closed := false } ∧
      roomyService.runReceived 0 [ServiceOp.broadcast (btc 2 101), ServiceOp.receive 0,
          ServiceOp.broadcast (btc 3 102), ServiceOp.broadcast (btc 4 103)]
        = some ({ storage := storageTwo
                  chans := [{ buf := [btc 3 102, btc 4 103], cap := 2, closed := false },
                            { buf := [btc 1 100, btc 2 101], cap := 2, closed := true }]
                  clients := [0]
                  apiURL := "https://data-api.coindesk.com/asset/v1/top/list"
                  bufferSize := 2 }, [btc 2 101]) ∧
      ∃ c', ([({ buf := [btc 3 102, btc 4 103], cap := 2, closed := false } : Chan),
          { buf := [btc 1 100, btc 2 101], cap := 2, closed := true }])[0]? = some c' ∧
        [btc 2 101] ++ c'.buf = [] ++ broadcastSamples [ServiceOp.broadcast (btc 2 101),
          ServiceOp.receive 0, ServiceOp.broadcast (btc 3 102),
          ServiceOp.broadcast (btc 4 103)] :=
  ⟨roomyService_wellFormed, by decide, rfl, by decide,
    (fifo_delivery roomyService roomyService_wellFormed 0
      { buf := [], cap := 2, closed := false } (by decide) rfl
      [ServiceOp.broadcast (btc 2 101), ServiceOp.receive 0,
        ServiceOp.broadcast (btc 3 102), ServiceOp.broadcast (btc 4 103)]
      { storage := storageTwo
        chans := [{ buf := [btc 3 102, btc 4 103], cap := 2, closed := false },
                  { buf := [btc 1 100, btc 2 101], cap := 2, closed := true }]
        clients := [0]
        apiURL := "https://data-api.coindesk.com/asset/v1/top/list"
        bufferSize := 2 } [btc 2 101] (by decide) (by decide)).imp
      (fun _ hc => ⟨hc.1, hc.2.1⟩)⟩

/-! ## Theorems: the producer step -/

/-- Claim C15 (producer step): when `fetchBitcoinPrice` returns an error,
`fetchAndBroadcastPrice` returns the service unchanged, storage and every queue included;
when it returns a sample `p`, `fetchAndBroadcastPrice` is `storage.Add(p)` followed by
`broadcastPrice(p)` with the same `p`.  On a well-formed service whose store holds the
history `hist` this returns, the store then holds `hist ++ [p]` (one `Add`), and every
registered queue is as after one broadcast of `p`, the others untouched. -/
theorem fetchAndBroadcastPrice_steps (ps : PriceService) (resp : HttpOutcome)
    (nowSince nowStamp : Int) :
    (∀ e, ps.fetchBitcoinPrice resp nowSince nowStamp = Except.error e →
      ps.fetchAndBroadcastPrice resp nowSince nowStamp = some ps) ∧
    (∀ p, ps.fetchBitcoinPrice resp nowSince nowStamp = Except.ok p →
      ps.fetchAndBroadcastPrice resp nowSince nowStamp
        = (ps.storage.Add p).bind
            (fun st => PriceService.broadcastPrice { ps with storage := st } p)) ∧
    (∀ p (C : Nat) (hist : List PriceUpdate),
      ps.fetchBitcoinPrice resp nowSince nowStamp = Except.ok p →
      ps.WellFormed → PriceStorage.Holds C hist ps.storage →
      ∃ ps', ps.fetchAndBroadcastPrice resp nowSince nowStamp = some ps' ∧
        PriceStorage.Holds C (hist ++ [p]) ps'.storage ∧
        ps'.storage.GetLatest = some (p, true) ∧
        ps'.clients = ps.clients.filter (fun k => ps.hasRoom k) ∧
        (∀ h ∈ ps.clients, ∀ c, ps.chans[h]? = some c →
          ps'.chans[h]? = some (c.afterBroadcast p)) ∧
        (∀ k, k ∉ ps.clients → ps'.chans[k]? = ps.chans[k]?)) := by
  refine ⟨?_, ?_, ?_⟩
  · intro e he
    simp [PriceService.fetchAndBroadcastPrice, he]
  · intro p hp
    simp only [PriceService.fetchAndBroadcastPrice, hp]
    rfl
  · intro p C hist hp wf hh
    obtain ⟨st, hadd, hh'⟩ := hh.add p
    have wf1 : PriceService.WellFormed { ps with storage := st } := ⟨wf.nodup, wf.live⟩
    obtain ⟨ps', hrun, hst, _, _, _, hcl, hframe, hupd, _⟩ :=
      broadcastPrice_outcome { ps with storage := st } wf1 p
    refine ⟨ps', ?_, ?_, ?_, ?_, hupd, hframe⟩
    · simp only [PriceService.fetchAndBroadcastPrice, hp, hadd]
      exact hrun
    · rw [hst]; exact hh'
    · rw [hst]; exact hh'.getLatest p
    · rw [hcl]
      apply List.filter_congr
      intro k _
      rfl

theorem storageTwo_holds : PriceStorage.Holds 2 [] storageTwo := by
  constructor <;> simp [storageTwo]

/-- Witness for C15: a poll answered with status 500, and a poll answered with a list
holding an `ETH` and a `BTC` asset, on `roomyService`. -/
theorem fetchAndBroadcastPrice_steps_witness :
    roomyService.fetchAndBroadcastPrice (HttpOutcome.response 500 (Decoded.list [])) 0 0
      = some roomyService ∧
    roomyService.fetchBitcoinPrice
        (HttpOutcome.response 200 (Decoded.list
          [{ Symbol := "ETH", Name := "Ethereum", PriceUSD := 3000, PriceUSDLastUpdateTS := 0 },
           { Symbol := "BTC", Name := "Bitcoin", PriceUSD := 50000,
             PriceUSDLastUpdateTS := 0 }]))
        62135596800000000000 62135596800000000000
      = Except.ok (btc 62135596800000000000 50000) ∧
    roomyService.WellFormed ∧ PriceStorage.Holds 2 [] roomyService.storage ∧
    ∃ ps', roomyService.fetchAndBroadcastPrice
        (HttpOutcome.response 200 (Decoded.list
          [{ Symbol := "ETH", Name := "Ethereum", PriceUSD := 3000, PriceUSDLastUpdateTS := 0 },
           { Symbol := "BTC", Name := "Bitcoin", PriceUSD := 50000,
             PriceUSDLastUpdateTS := 0 }]))
        62135596800000000000 62135596800000000000 = some ps' ∧
      PriceStorage.Holds 2 ([] ++ [btc 62135596800000000000 50000]) ps'.storage ∧
      ps'.storage.GetLatest = some (btc 62135596800000000000 50000, true) ∧
      ps'.clients = roomyService.clients.filter (fun k => roomyService.hasRoom k) ∧
      (∀ h ∈ roomyService.clients, ∀ c, roomyService.chans[h]? = some c →
        ps'.chans[h]? = some (c.afterBroadcast (btc 62135596800000000000 50000))) ∧
      (∀ k, k ∉ roomyService.clients → ps'.chans[k]? = roomyService.chans[k]?) :=
  ⟨(fetchAndBroadcastPrice_steps roomyService
      (HttpOutcome.response 500 (Decoded.list [])) 0 0).1 _ rfl,
    rfl, roomyService_wellFormed, storageTwo_holds,
    (fetchAndBroadcastPrice_steps roomyService
      (HttpOutcome.response 200 (Decoded.list
        [{ Symbol := "ETH", Name := "Ethereum", PriceUSD := 3000, PriceUSDLastUpdateTS := 0 },
         { Symbol := "BTC", Name := "Bitcoin", PriceUSD := 50000,
           PriceUSDLastUpdateTS := 0 }]))
      62135596800000000000 62135596800000000000).2.2
      (btc 62135596800000000000 50000) 2 [] rfl roomyService_wellFormed
      storageTwo_holds⟩

/-! ## Theorems: the effect of one Add -/

theorem ringInvariant_nat {C : Int} {ps : PriceStorage} (wf : ps.RingInvariant C) :
    ∃ c t s hd : Nat, 0 < c ∧ C = (c : Int) ∧ ps.capacity = (c : Int) ∧
      ps.updates.length = c ∧ ps.tail = (t : Int) ∧ ps.size = (s : Int) ∧
      ps.head = (hd : Int) ∧ t < c ∧ s ≤ c ∧ hd < c ∧ hd = (t + s) % c := by
  obtain ⟨h1, h2, h3, h4, h5, h6, h7, h8, h9, h10⟩ := wf
  lift C to ℕ using (by omega)
  obtain ⟨t, ht⟩ := Int.eq_ofNat_of_zero_le h8
  obtain ⟨s, hs⟩ := Int.eq_ofNat_of_zero_le h4
  obtain ⟨hd, hhd⟩ := Int.eq_ofNat_of_zero_le h6
  refine ⟨C, t, s, hd, by omega, rfl, h2, by exact_mod_cast h3, ht, hs, hhd, by omega,
    by omega, by omega, ?_⟩
  rw [ht, hs, hhd] at h10
  exact_mod_cast h10

theorem occupied_eq {ps : PriceStorage} {c t s : Nat} (hcap : ps.capacity = (c : Int))
    (ht : ps.tail = (t : Int)) (hs : ps.size = (s : Int)) :
    ps.occupied = (List.range s).map
      (fun i => ps.updates.getD ((t + i) % c) PriceUpdate.zero) := by
  simp [PriceStorage.occupied, hcap, ht, hs]

/-- In a well-formed store `GetAllUpdates` returns the occupied slots, oldest first. -/
theorem getAllUpdates_occupied {C : Int} {ps : PriceStorage} (wf : ps.RingInvariant C) :
    ps.GetAllUpdates = some ps.occupied := by
  obtain ⟨c, t, s, hd, hc, _, hcap, hlen, ht, hs, _, _, _, _, _⟩ := ringInvariant_nat wf
  have hocc := occupied_eq hcap ht hs
  have hL : ps.occupied.length = s := by rw [hocc]; simp
  have hread : ∀ j (hj : j < ps.occupied.length), ∃ idx,
      goMod (ps.tail + (j : Int)) ps.capacity = some idx ∧
        sliceGet ps.updates idx = some (ps.occupied[j]) := by
    intro j hj
    refine ⟨(((t + j) % c : Nat) : Int), ?_, ?_⟩
    · rw [ht, hcap]
      exact_mod_cast goMod_natCast (t + j) c hc
    · have hlt : (t + j) % c < ps.updates.length := by rw [hlen]; exact Nat.mod_lt _ hc
      rw [sliceGet_natCast, List.getElem?_eq_getElem hlt]
      congr 1
      simp only [hocc, List.getElem_map, List.getElem_range]
      rw [List.getD_eq_getElem _ _ hlt]
  have := getAllUpdates_loop_eq ps ps.occupied hread ps.occupied.length 0 (by simp)
  have hneg : ¬ ((s : Int) < 0) := by omega
  simp only [PriceStorage.GetAllUpdates, makeSlice, hs, hneg, if_false, Option.bind_eq_bind,
    Option.some_bind, Int.toNat_ofNat]
  rw [hL] at this
  simpa using this

theorem add_eq_addSpec {C : Int} {ps : PriceStorage} (wf : ps.RingInvariant C)
    (u : PriceUpdate) : ps.Add u = some (ps.addSpec u) := by
  obtain ⟨h1, h2, h3, h4, h5, h6, h7, h8, h9, h10⟩ := wf
  have hset : sliceSet ps.updates ps.head u = some (ps.updates.set ps.head.toNat u) := by
    unfold sliceSet
    rw [if_pos ⟨h6, by omega⟩]
  have h0 : ps.capacity ≠ 0 := by omega
  have hhd : goMod (ps.head + 1) ps.capacity = some ((ps.head + 1) % ps.capacity) := by
    simp only [goMod, if_neg h0]
    rw [Int.tmod_eq_emod (by omega) (by omega)]
  have htl : goMod (ps.tail + 1) ps.capacity = some ((ps.tail + 1) % ps.capacity) := by
    simp only [goMod, if_neg h0]
    rw [Int.tmod_eq_emod (by omega) (by omega)]
  by_cases hsz : ps.size < ps.capacity
  · simp [PriceStorage.Add, PriceStorage.addSpec, hset, hhd, hsz]
  · simp [PriceStorage.Add, PriceStorage.addSpec, hset, hhd, htl, hsz]

theorem addSpec_ringInvariant {C : Int} {ps : PriceStorage}
    (wf : ps.RingInvariant C) (u : PriceUpdate) :
    (ps.addSpec u).RingInvariant C := by
  obtain ⟨h1, h2, h3, h4, h5, h6, h7, h8, h9, h10⟩ := wf
  have hCpos : 0 < C := by omega
  have hCne : C ≠ 0 := by omega
  unfold PriceStorage.addSpec
  rw [h2]
  by_cases hsz : ps.size < C
  · simp only [if_pos hsz]
    refine ⟨h1, rfl, by simpa using h3, ?_, ?_, Int.emod_nonneg _ hCne,
      Int.emod_lt_of_pos _ hCpos, h8, h9, ?_⟩
    · show (0 : Int) ≤ ps.size + 1
      omega
    · show ps.size + 1 ≤ C
      omega
    · show (ps.head + 1) % C = (ps.tail + (ps.size + 1)) % C
      rw [h10, Int.emod_add_emod]
      congr 1
      ring
  · simp only [if_neg hsz]
    have hfull : ps.size = C := by omega
    have hht : ps.head = ps.tail := by
      rw [h10, hfull, Int.add_emod_self, Int.emod_eq_of_lt h8 h9]
    refine ⟨h1, rfl, by simpa using h3, h4, h5, Int.emod_nonneg _ hCne,
      Int.emod_lt_of_pos _ hCpos, Int.emod_nonneg _ hCne, Int.emod_lt_of_pos _ hCpos, ?_⟩
    show (ps.head + 1) % C = ((ps.tail + 1) % C + ps.size) % C
    rw [hfull, Int.add_emod_self, Int.emod_emod_of_dvd _ (dvd_refl C), hht]

theorem occupied_addSpec {C : Int} {ps : PriceStorage} (wf : ps.RingInvariant C)
    (u : PriceUpdate) :
    (ps.addSpec u).occupied
      = if ps.size < C then ps.occupied ++ [u] else ps.occupied.drop 1 ++ [u] := by
  obtain ⟨c, t, s, hd, hc, hC, hcap, hlen, ht, hs, hhd, htc, hsc, hhdc, hheq⟩ :=
    ringInvariant_nat wf
  have hocc := occupied_eq hcap ht hs
  have hhdlt : hd < ps.updates.length := by omega
  have hupd : (ps.addSpec u).updates = ps.updates.set hd u := by
    simp [PriceStorage.addSpec, hhd]
  have hcap' : (ps.addSpec u).capacity = (c : Int) := hcap
  by_cases hsz : ps.size < C
  · have hslt : s < c := by rw [hs, hC] at hsz; omega
    have hszc : ps.size < ps.capacity := by rw [hcap, ← hC]; exact hsz
    have ht' : (ps.addSpec u).tail = (t : Int) := by
      simp [PriceStorage.addSpec, hszc, ht]
    have hs' : (ps.addSpec u).size = ((s + 1 : Nat) : Int) := by
      show (if ps.size < ps.capacity then ps.size + 1 else ps.size) = _
      rw [if_pos hszc, hs]
      push_cast
      rfl
    rw [if_pos hsz, hocc, occupied_eq hcap' ht' hs', hupd, List.range_succ, List.map_append]
    simp only [List.map_cons, List.map_nil]
    congr 1
    · apply List.map_congr_left
      intro i hi
      have hi' : i < s := List.mem_range.mp hi
      have hne : hd ≠ (t + i) % c := by
        rw [hheq]
        exact mod_ne_of_lt_of_sub_lt (by omega) (by omega)
      simp only [List.getD_eq_getElem?_getD, List.getElem?_set_ne hne]
    · rw [← hheq]
      simp [List.getD_eq_getElem?_getD, List.getElem?_set, hhdlt]
  · have hfull : s = c := by rw [hs, hC] at hsz; omega
    have hszc : ¬ ps.size < ps.capacity := by rw [hcap, ← hC]; exact hsz
    have hht : hd = t := by rw [hheq, hfull, Nat.add_mod_right, Nat.mod_eq_of_lt htc]
    have ht' : (ps.addSpec u).tail = (((t + 1) % c : Nat) : Int) := by
      show (if ps.size < ps.capacity then ps.tail else (ps.tail + 1) % ps.capacity) = _
      rw [if_neg hszc, ht, hcap]
      norm_cast
    have hs' : (ps.addSpec u).size = (s : Int) := by
      show (if ps.size < ps.capacity then ps.size + 1 else ps.size) = _
      rw [if_neg hszc, hs]
    rw [if_neg hsz, hocc, occupied_eq hcap' ht' hs', hupd]
    apply List.ext_getElem
    · simp; omega
    · intro i h1 h2
      have hi : i < s := by simpa using h1
      simp only [List.getElem_map, List.getElem_range, Nat.mod_add_mod]
      by_cases hlast : i + 1 < s
      · have hne : hd ≠ (t + 1 + i) % c := by
          rw [hht]
          have := @mod_ne_of_lt_of_sub_lt t (t + 1 + i) c (by omega) (by omega)
          rw [Nat.mod_eq_of_lt htc] at this
          exact fun e => this e.symm
        rw [List.getElem_append_left (by simp; omega)]
        simp only [List.getElem_drop, List.getElem_map, List.getElem_range,
          List.getD_eq_getElem?_getD, List.getElem?_set_ne hne]
        congr 3
        omega
      · have hi2 : i + 1 = c := by omega
        have hidx : (t + 1 + i) % c = hd := by
          rw [hht, show t + 1 + i = t + c by omega, Nat.add_mod_right, Nat.mod_eq_of_lt htc]
        rw [List.getElem_append_right (by simp; omega)]
        simp [hidx, List.getD_eq_getElem?_getD, List.getElem?_set, hhdlt]

/-- Claim C17 (frame of Add): in every well-formed store of capacity `C >= 1`, `Add u`
succeeds, writes `u` at index `head`, sets `head` to `(head + 1) mod C` and keeps the
capacity.  If `size < C`, `size` grows by one and `tail` stays; if `size = C`, then
`head = tail`, so the slot overwritten is the oldest one, `tail` advances to
`(tail + 1) mod C` together with `head`, and `size` stays.  The result is well-formed, and
`GetAllUpdates` afterwards is the former sequence with `u` appended and, in the full case,
its oldest element dropped. -/
theorem add_frame (C : Int) (ps : PriceStorage) (u : PriceUpdate)
    (wf : ps.RingInvariant C) :
    ∃ ps', ps.Add u = some ps' ∧
      ps'.capacity = ps.capacity ∧
      ps'.updates = ps.updates.set ps.head.toNat u ∧
      ps'.head = (ps.head + 1) % C ∧
      (ps.size < C → ps'.size = ps.size + 1 ∧ ps'.tail = ps.tail) ∧
      (ps.size = C → ps.head = ps.tail ∧ ps'.tail = (ps.tail + 1) % C ∧
        ps'.head = ps'.tail ∧ ps'.size = ps.size) ∧
      ps'.RingInvariant C ∧
      ∃ L L', ps.GetAllUpdates = some L ∧ ps'.GetAllUpdates = some L' ∧
        (L.length : Int) = ps.size ∧
        (ps.size < C → L' = L ++ [u]) ∧
        (ps.size = C → L' = L.drop 1 ++ [u]) := by
  have wf' := addSpec_ringInvariant wf u
  have hocc := occupied_addSpec wf u
  obtain ⟨h1, h2, h3, h4, h5, h6, h7, h8, h9, h10⟩ := wf
  have wf0 : ps.RingInvariant C := ⟨h1, h2, h3, h4, h5, h6, h7, h8, h9, h10⟩
  refine ⟨ps.addSpec u, add_eq_addSpec wf0 u, rfl, rfl, ?_, ?_, ?_, wf',
    ps.occupied, (ps.addSpec u).occupied, getAllUpdates_occupied wf0,
    getAllUpdates_occupied wf', ?_, ?_, ?_⟩
  · show (ps.head + 1) % ps.capacity = _
    rw [h2]
  · intro hsz
    have hszc : ps.size < ps.capacity := by omega
    exact ⟨by show (if ps.size < ps.capacity then ps.size + 1 else ps.size) = _
              rw [if_pos hszc],
      by show (if ps.size < ps.capacity then ps.tail else (ps.tail + 1) % ps.capacity) = _
         rw [if_pos hszc]⟩
  · intro hfull
    have hszc : ¬ ps.size < ps.capacity := by omega
    have hht : ps.head = ps.tail := by
      rw [h10, hfull, Int.add_emod_self, Int.emod_eq_of_lt h8 h9]
    refine ⟨hht, ?_, ?_, ?_⟩
    · show (if ps.size < ps.capacity then ps.tail else (ps.tail + 1) % ps.capacity) = _
      rw [if_neg hszc, h2]
    · show (ps.head + 1) % ps.capacity
        = (if ps.size < ps.capacity then ps.tail else (ps.tail + 1) % ps.capacity)
      rw [if_neg hszc, hht]
    · show (if ps.size < ps.capacity then ps.size + 1 else ps.size) = _
      rw [if_neg hszc]
  · simp only [PriceStorage.occupied, List.length_map, List.length_range]
    exact Int.toNat_of_nonneg h4
  · intro hsz
    rw [hocc, if_pos hsz]
  · intro hfull
    have hsz : ¬ ps.size < C := by omega
    rw [hocc, if_neg hsz]

theorem wrappedStore_ringInvariant : wrappedStore.RingInvariant 2 := by
  constructor <;> decide

/-- Witness for C17: the full store after three Adds at capacity 2. -/
theorem add_frame_witness :
    wrappedStore.RingInvariant 2 ∧
      ∃ ps', wrappedStore.Add (btc 4 103) = some ps' ∧
        ps'.capacity = wrappedStore.capacity ∧
        ps'.updates = wrappedStore.updates.set wrappedStore.head.toNat (btc 4 103) ∧
        ps'.head = (wrappedStore.head + 1) % 2 ∧
        (wrappedStore.size < 2 →
          ps'.size = wrappedStore.size + 1 ∧ ps'.tail = wrappedStore.tail) ∧
        (wrappedStore.size = 2 →
          wrappedStore.head = wrappedStore.tail ∧ ps'.tail = (wrappedStore.tail + 1) % 2 ∧
          ps'.head = ps'.tail ∧ ps'.size = wrappedStore.size) ∧
        ps'.RingInvariant 2 ∧
        ∃ L L', wrappedStore.GetAllUpdates = some L ∧ ps'.GetAllUpdates = some L' ∧
          (L.length : Int) = wrappedStore.size ∧
          (wrappedStore.size < 2 → L' = L ++ [btc 4 103]) ∧
          (wrappedStore.size = 2 → L' = L.drop 1 ++ [btc 4 103]) :=
  ⟨wrappedStore_ringInvariant,
    add_frame 2 wrappedStore (btc 4 103) wrappedStore_ringInvariant⟩

/-! ## Theorems: fetching the price -/

theorem findBitcoin_none {assets : List AssetData} :
    findBitcoin assets = none ↔ ∀ a ∈ assets, a.Symbol ≠ "BTC" := by
  induction assets with
  | nil => simp [findBitcoin]
  | cons a rest ih =>
    by_cases h : a.Symbol = "BTC"
    · simp [findBitcoin, h]
    · simp [findBitcoin, h, ih]

theorem findBitcoin_first (pre : List AssetData) (a : AssetData) (post : List AssetData)
    (ha : a.Symbol = "BTC") (hpre : ∀ b ∈ pre, b.Symbol ≠ "BTC") :
    findBitcoin (pre ++ a :: post) = some a := by
  induction pre with
  | nil => simp [findBitcoin, ha]
  | cons b rest ih =>
    have hb : b.Symbol ≠ "BTC" := hpre b (List.mem_cons_self _ _)
    simp only [List.cons_append, findBitcoin, if_neg hb]
    exact ih (fun x hx => hpre x (List.mem_cons_of_mem _ hx))

/-- Claim C22 (Bitcoin lookup): for every decoded asset list that arrives with status 200,
`fetchBitcoinPrice` returns the error `"bitcoin data not found in API response"`, and no
sample, exactly when no asset of the list has symbol `"BTC"`; otherwise it returns no
error and a sample whose price, symbol and name are those of the first asset, in list
order, whose symbol is `"BTC"`. -/
theorem fetchBitcoinPrice_finds_first_btc (ps : PriceService) (assets : List AssetData)
    (nowSince nowStamp : Int) :
    ((∀ a ∈ assets, a.Symbol ≠ "BTC") →
      ps.fetchBitcoinPrice (HttpOutcome.response 200 (Decoded.list assets)) nowSince nowStamp
        = Except.error "bitcoin data not found in API response") ∧
    (∀ e, ps.fetchBitcoinPrice (HttpOutcome.response 200 (Decoded.list assets)) nowSince
        nowStamp = Except.error e →
      e = "bitcoin data not found in API response" ∧ ∀ a ∈ assets, a.Symbol ≠ "BTC") ∧
    (∀ pre a post, assets = pre ++ a :: post → a.Symbol = "BTC" →
      (∀ b ∈ pre, b.Symbol ≠ "BTC") →
      ∃ p, ps.fetchBitcoinPrice (HttpOutcome.response 200 (Decoded.list assets)) nowSince
          nowStamp = Except.ok p ∧
        p.Price = a.PriceUSD ∧ p.Symbol = a.Symbol ∧ p.Name = a.Name ∧
        (p.Timestamp = timeUnix a.PriceUSDLastUpdateTS ∨ p.Timestamp = nowStamp)) := by
  refine ⟨?_, ?_, ?_⟩
  · intro hno
    simp [PriceService.fetchBitcoinPrice, findBitcoin_none.mpr hno]
  · intro e he
    cases hf : findBitcoin assets with
    | none =>
      simp [PriceService.fetchBitcoinPrice, hf] at he
      exact ⟨he.symm, findBitcoin_none.mp hf⟩
    | some b =>
      simp [PriceService.fetchBitcoinPrice, hf] at he
  · intro pre a post hsplit ha hpre
    have hf : findBitcoin assets = some a := by
      rw [hsplit]; exact findBitcoin_first pre a post ha hpre
    refine ⟨_, by simp only [PriceService.fetchBitcoinPrice, hf]; rfl, rfl, rfl, rfl, ?_⟩
    simp only
    split
    · exact Or.inr rfl
    · exact Or.inl rfl

/-- Witness for C22: a list without `BTC`, and a list with an `ETH` asset followed by two
`BTC` assets. -/
theorem fetchBitcoinPrice_finds_first_btc_witness :
    roomyService.fetchBitcoinPrice (HttpOutcome.response 200 (Decoded.list
        [{ Symbol := "ETH", Name := "Ethereum", PriceUSD := 3000, PriceUSDLastUpdateTS := 0 }]))
        0 0
      = Except.error "bitcoin data not found in API response" ∧
    ∃ p, roomyService.fetchBitcoinPrice (HttpOutcome.response 200 (Decoded.list
        [{ Symbol := "ETH", Name := "Ethereum", PriceUSD := 3000, PriceUSDLastUpdateTS := 0 },
         { Symbol := "BTC", Name := "Bitcoin", PriceUSD := 50000, PriceUSDLastUpdateTS := 0 },
         { Symbol := "BTC", Name := "Other", PriceUSD := 1, PriceUSDLastUpdateTS := 0 }]))
        0 0 = Except.ok p ∧
      p.Price = 50000 ∧ p.Symbol = "BTC" ∧ p.Name = "Bitcoin" :=
  ⟨(fetchBitcoinPrice_finds_first_btc roomyService
      [{ Symbol := "ETH", Name := "Ethereum", PriceUSD := 3000, PriceUSDLastUpdateTS := 0 }]
      0 0).1 (by decide),
    ((fetchBitcoinPrice_finds_first_btc roomyService
      [{ Symbol := "ETH", Name := "Ethereum", PriceUSD := 3000, PriceUSDLastUpdateTS := 0 },
       { Symbol := "BTC", Name := "Bitcoin", PriceUSD := 50000, PriceUSDLastUpdateTS := 0 },
       { Symbol := "BTC", Name := "Other", PriceUSD := 1, PriceUSDLastUpdateTS := 0 }]
      0 0).2.2
      [{ Symbol := "ETH", Name := "Ethereum", PriceUSD := 3000, PriceUSDLastUpdateTS := 0 }]
      { Symbol := "BTC", Name := "Bitcoin", PriceUSD := 50000, PriceUSDLastUpdateTS := 0 }
      [{ Symbol := "BTC", Name := "Other", PriceUSD := 1, PriceUSDLastUpdateTS := 0 }]
      rfl rfl (by decide)).imp (fun _ h => ⟨h.1, h.2.1, h.2.2.1, h.2.2.2.1⟩)⟩

/-! ## Theorems: the ring invariant and fault freedom -/

theorem newPriceStorage_ringInvariant (C : Int) (hC : 1 ≤ C) :
    ∃ ps0, NewPriceStorage C = some ps0 ∧ ps0.RingInvariant C := by
  have h0 : ¬ (C < 0) := by omega
  refine ⟨{ updates := List.replicate C.toNat PriceUpdate.zero, capacity := C, head := 0,
            tail := 0, size := 0 }, by simp [NewPriceStorage, makeSlice, h0], ?_⟩
  refine ⟨hC, rfl, ?_, le_refl _, by show (0 : Int) ≤ C; omega, le_refl _,
    by show (0 : Int) < C; omega, le_refl _, by show (0 : Int) < C; omega, ?_⟩
  · show ((List.replicate C.toNat PriceUpdate.zero).length : Int) = C
    rw [List.length_replicate]
    exact Int.toNat_of_nonneg (by omega)
  · show (0 : Int) = (0 + 0) % C
    simp

theorem addAll_ringInvariant (C : Int) (us : List PriceUpdate) :
    ∀ ps : PriceStorage, ps.RingInvariant C →
      ∃ ps', ps.AddAll us = some ps' ∧ ps'.RingInvariant C := by
  induction us with
  | nil => intro ps wf; exact ⟨ps, rfl, wf⟩
  | cons u us ih =>
    intro ps wf
    obtain ⟨ps2, h2, wf2⟩ := ih (ps.addSpec u) (addSpec_ringInvariant wf u)
    exact ⟨ps2, by simp [PriceStorage.AddAll, add_eq_addSpec wf u, h2], wf2⟩

theorem ringInvariant_read {C : Int} {ps : PriceStorage} (wf : ps.RingInvariant C) :
    ∀ j (hj : j < ps.occupied.length), ∃ idx,
      goMod (ps.tail + (j : Int)) ps.capacity = some idx ∧
        0 ≤ idx ∧ idx < (ps.updates.length : Int) ∧
        idx = (ps.tail + (j : Int)) % C ∧
        sliceGet ps.updates idx = some (ps.occupied[j]) ∧
        ps.updates[idx.toNat]? = some (ps.occupied[j]) := by
  obtain ⟨c, t, s, hd, hc, hC, hcap, hlen, ht, hs, _, _, _, _, _⟩ := ringInvariant_nat wf
  have hocc := occupied_eq hcap ht hs
  intro j hj
  have hlt : (t + j) % c < ps.updates.length := by rw [hlen]; exact Nat.mod_lt _ hc
  have helem : ps.updates[(t + j) % c]? = some (ps.occupied[j]) := by
    rw [List.getElem?_eq_getElem hlt]
    congr 1
    simp only [hocc, List.getElem_map, List.getElem_range]
    rw [List.getD_eq_getElem _ _ hlt]
  refine ⟨(((t + j) % c : Nat) : Int), ?_, by omega, by omega, ?_, ?_, ?_⟩
  · rw [ht, hcap]
    exact_mod_cast goMod_natCast (t + j) c hc
  · rw [ht, hC]
    norm_cast
  · rw [sliceGet_natCast]
    exact helem
  · simpa using helem

theorem getUpdatesSince_occupied {C : Int} {ps : PriceStorage} (wf : ps.RingInvariant C)
    (since : Int) :
    ps.GetUpdatesSince since
      = some (ps.occupied.filter (fun u => timeAfter u.Timestamp since)) := by
  obtain ⟨c, t, s, hd, hc, _, hcap, hlen, ht, hs, _, _, _, _, _⟩ := ringInvariant_nat wf
  have hL : ps.occupied.length = s := by rw [occupied_eq hcap ht hs]; simp
  have hread : ∀ j (hj : j < ps.occupied.length), ∃ idx,
      goMod (ps.tail + (j : Int)) ps.capacity = some idx ∧
        sliceGet ps.updates idx = some (ps.occupied[j]) := by
    intro j hj
    obtain ⟨idx, h1, _, _, _, h2, _⟩ := ringInvariant_read wf j hj
    exact ⟨idx, h1, h2⟩
  have := getUpdatesSince_loop_eq ps since ps.occupied hread ps.occupied.length 0 []
    (by simp)
  simp only [PriceStorage.GetUpdatesSince, hs, Int.toNat_ofNat]
  rw [hL] at this
  simpa using this

theorem getLatest_index {C : Int} {ps : PriceStorage} (wf : ps.RingInvariant C) :
    ∃ idx, goMod (ps.head - 1 + ps.capacity) ps.capacity = some idx ∧
      0 ≤ idx ∧ idx < (ps.updates.length : Int) ∧ ∃ v, sliceGet ps.updates idx = some v := by
  obtain ⟨h1, h2, h3, h4, h5, h6, h7, h8, h9, h10⟩ := wf
  have h0 : ps.capacity ≠ 0 := by omega
  have hCne : C ≠ 0 := by omega
  have hCpos : 0 < C := by omega
  have hnn : 0 ≤ (ps.head - 1 + C) % C := Int.emod_nonneg _ hCne
  have hlt : (ps.head - 1 + C) % C < (ps.updates.length : Int) := by
    rw [h3]; exact Int.emod_lt_of_pos _ hCpos
  refine ⟨(ps.head - 1 + C) % C, ?_, hnn, hlt, ?_⟩
  · simp only [goMod, if_neg h0]
    rw [h2, Int.tmod_eq_emod (by omega) (by omega)]
  · have hidx : ((ps.head - 1 + C) % C).toNat < ps.updates.length := by omega
    refine ⟨ps.updates[((ps.head - 1 + C) % C).toNat], ?_⟩
    unfold sliceGet
    rw [if_pos ⟨hnn, hlt⟩, List.getElem?_eq_getElem hidx]

theorem getLatest_returns {C : Int} {ps : PriceStorage} (wf : ps.RingInvariant C) :
    ∃ r, ps.GetLatest = some r := by
  by_cases hs : ps.size = 0
  · exact ⟨(PriceUpdate.zero, false), by simp [PriceStorage.GetLatest, hs]⟩
  · obtain ⟨idx, hi, _, _, v, hv⟩ := getLatest_index wf
    exact ⟨(v, true), by simp [PriceStorage.GetLatest, hs, hi, hv]⟩

/-- Claim C23 (ring invariant): for `C >= 1` the predicate `capacity = C`,
`len(updates) = C`, `0 <= size <= C`, `0 <= head < C`, `0 <= tail < C` and
`head = (tail + size) mod C` holds for the store `NewPriceStorage` returns, is preserved
by every `Add`, hence holds after every sequence of Adds; and in every store satisfying
it `GetAllUpdates` returns `size` samples, the `i`-th of which is the slot
`(tail + i) mod C`: the occupied slots oldest to newest. -/
theorem ring_invariant_preserved (C : Int) (hC : 1 ≤ C) :
    (∃ ps0, NewPriceStorage C = some ps0 ∧ ps0.RingInvariant C) ∧
    (∀ (ps : PriceStorage) (u : PriceUpdate), ps.RingInvariant C →
      ∃ ps', ps.Add u = some ps' ∧ ps'.RingInvariant C) ∧
    (∀ xs : List PriceUpdate, ∃ ps, storeAfter C xs = some ps ∧ ps.RingInvariant C) ∧
    (∀ ps : PriceStorage, ps.RingInvariant C →
      ∃ L, ps.GetAllUpdates = some L ∧ (L.length : Int) = ps.size ∧
        ∀ i : Nat, (i : Int) < ps.size →
          0 ≤ (ps.tail + (i : Int)) % C ∧ (ps.tail + (i : Int)) % C < C ∧
          L[i]? = ps.updates[((ps.tail + (i : Int)) % C).toNat]?) := by
  obtain ⟨ps0, hnew, wf0⟩ := newPriceStorage_ringInvariant C hC
  refine ⟨⟨ps0, hnew, wf0⟩, ?_, ?_, ?_⟩
  · intro ps u wf
    exact ⟨ps.addSpec u, add_eq_addSpec wf u, addSpec_ringInvariant wf u⟩
  · intro xs
    obtain ⟨ps, hadd, wf⟩ := addAll_ringInvariant C xs ps0 wf0
    exact ⟨ps, by simp [storeAfter, hnew, hadd], wf⟩
  · intro ps wf
    have hlen : (ps.occupied.length : Int) = ps.size := by
      simp only [PriceStorage.occupied, List.length_map, List.length_range]
      exact Int.toNat_of_nonneg wf.size_nonneg
    refine ⟨ps.occupied, getAllUpdates_occupied wf, hlen, ?_⟩
    intro i hi
    have hj : i < ps.occupied.length := by omega
    obtain ⟨idx, _, h2, h3, h4, _, h6⟩ := ringInvariant_read wf i hj
    rw [← h4]
    refine ⟨h2, by rw [← wf.len]; exact h3, ?_⟩
    rw [h6, List.getElem?_eq_getElem hj]

/-- Witness for C23: capacity 2; the invariant after three Adds. -/
theorem ring_invariant_preserved_witness :
    (1 : Int) ≤ 2 ∧
      ∃ ps, storeAfter 2 [btc 1 100, btc 2 101, btc 3 102] = some ps ∧
        ps.RingInvariant 2 :=
  ⟨by decide, (ring_invariant_preserved 2 (by decide)).2.2.1
    [btc 1 100, btc 2 101, btc 3 102]⟩

theorem call_ringInvariant {C : Int} {ps : PriceStorage} (wf : ps.RingInvariant C)
    (op : StorageOp) : ∃ ps' reply, ps.call op = some (ps', reply) ∧ ps'.RingInvariant C := by
  cases op with
  | add u =>
    exact ⟨ps.addSpec u, StorageReply.added,
      by simp [PriceStorage.call, add_eq_addSpec wf u], addSpec_ringInvariant wf u⟩
  | getLatest =>
    obtain ⟨r, hr⟩ := getLatest_returns wf
    exact ⟨ps, StorageReply.latest r.1 r.2, by simp [PriceStorage.call, hr], wf⟩
  | getAllUpdates =>
    exact ⟨ps, StorageReply.updates ps.occupied,
      by simp [PriceStorage.call, getAllUpdates_occupied wf], wf⟩
  | getUpdatesSince since =>
    exact ⟨ps, StorageReply.updates
        (ps.occupied.filter (fun u => timeAfter u.Timestamp since)),
      by simp [PriceStorage.call, getUpdatesSince_occupied wf since], wf⟩

theorem calls_ringInvariant (C : Int) (ops : List StorageOp) :
    ∀ ps : PriceStorage, ps.RingInvariant C →
      ∃ ps' replies, ps.calls ops = some (ps', replies) ∧
        replies.length = ops.length ∧ ps'.RingInvariant C := by
  induction ops with
  | nil => intro ps wf; exact ⟨ps, [], rfl, rfl, wf⟩
  | cons op ops ih =>
    intro ps wf
    obtain ⟨ps1, reply, h1, wf1⟩ := call_ringInvariant wf op
    obtain ⟨ps2, replies, h2, hl, wf2⟩ := ih ps1 wf1
    exact ⟨ps2, reply :: replies, by simp [PriceStorage.calls, h1, h2], by simp [hl], wf2⟩

/-- Claim C24 (fault freedom): for every capacity `C >= 1` and every sequence of `Add`,
`GetLatest`, `GetAllUpdates` and `GetUpdatesSince` calls on the store `NewPriceStorage`
returns, every call returns without a fault.  In every store so reached the modulus
`capacity` is not zero and each index used is within the buffer: `head` in `Add`,
`(tail + i) % capacity` for `0 <= i < size` in the range queries, and
`(head - 1 + capacity) % capacity` in `GetLatest`; so `Add` accepts every sample and
succeeds. -/
theorem storage_calls_never_fault (C : Int) (hC : 1 ≤ C) (ops : List StorageOp) :
    ∃ ps0 ps replies, NewPriceStorage C = some ps0 ∧
      ps0.calls ops = some (ps, replies) ∧ replies.length = ops.length ∧
      ps.capacity = C ∧ ps.capacity ≠ 0 ∧ (ps.updates.length : Int) = C ∧
      (0 ≤ ps.head ∧ ps.head < (ps.updates.length : Int)) ∧
      (∀ i : Nat, (i : Int) < ps.size → ∃ idx,
        goMod (ps.tail + (i : Int)) ps.capacity = some idx ∧
          0 ≤ idx ∧ idx < (ps.updates.length : Int)) ∧
      (∃ idx, goMod (ps.head - 1 + ps.capacity) ps.capacity = some idx ∧
        0 ≤ idx ∧ idx < (ps.updates.length : Int)) ∧
      (∀ u, ∃ ps', ps.Add u = some ps') := by
  obtain ⟨ps0, hnew, wf0⟩ := newPriceStorage_ringInvariant C hC
  obtain ⟨ps, replies, hcalls, hl, wf⟩ := calls_ringInvariant C ops ps0 wf0
  refine ⟨ps0, ps, replies, hnew, hcalls, hl, wf.cap, ?_, wf.len, ?_, ?_, ?_, ?_⟩
  · rw [wf.cap]; omega
  · exact ⟨wf.head_nonneg, by rw [wf.len]; exact wf.head_lt⟩
  · intro i hi
    have hlen : (ps.occupied.length : Int) = ps.size := by
      simp only [PriceStorage.occupied, List.length_map, List.length_range]
      exact Int.toNat_of_nonneg wf.size_nonneg
    obtain ⟨idx, h1, h2, h3, _⟩ := ringInvariant_read wf i (by omega)
    exact ⟨idx, h1, h2, h3⟩
  · obtain ⟨idx, h1, h2, h3, _⟩ := getLatest_index wf
    exact ⟨idx, h1, h2, h3⟩
  · intro u
    exact ⟨ps.addSpec u, add_eq_addSpec wf u⟩

/-- Witness for C24: capacity 2 and a sequence of calls that starts on the empty store and
wraps around. -/
theorem storage_calls_never_fault_witness :
    (1 : Int) ≤ 2 ∧
      (∃ ps0, NewPriceStorage 2 = some ps0 ∧
        ps0.calls [StorageOp.getLatest, StorageOp.getAllUpdates, StorageOp.add (btc 1 100),
            StorageOp.add (btc 2 101), StorageOp.add (btc 3 102), StorageOp.getLatest,
            StorageOp.getUpdatesSince 2, StorageOp.getAllUpdates]
          = some (wrappedStore,
              [StorageReply.latest PriceUpdate.zero false, StorageReply.updates [],
                StorageReply.added, StorageReply.added, StorageReply.added,
                StorageReply.latest (btc 3 102) true, StorageReply.updates [btc 3 102],
                StorageReply.updates [btc 2 101, btc 3 102]])) ∧
      ∃ ps0 ps replies, NewPriceStorage 2 = some ps0 ∧
        ps0.calls [StorageOp.getLatest, StorageOp.getAllUpdates, StorageOp.add (btc 1 100),
            StorageOp.add (btc 2 101), StorageOp.add (btc 3 102), StorageOp.getLatest,
            StorageOp.getUpdatesSince 2, StorageOp.getAllUpdates]
          = some (ps, replies) ∧ replies.length = 8 :=
  ⟨by decide, ⟨_, rfl, by decide⟩,
    (storage_calls_never_fault 2 (by decide)
      [StorageOp.getLatest, StorageOp.getAllUpdates, StorageOp.add (btc 1 100),
        StorageOp.add (btc 2 101), StorageOp.add (btc 3 102), StorageOp.getLatest,
        StorageOp.getUpdatesSince 2, StorageOp.getAllUpdates]).imp
      (fun _ h => h.imp (fun _ h => h.imp (fun _ h => ⟨h.1, h.2.1, h.2.2.1⟩)))⟩

/-! ## Theorems: the consumer loops -/

theorem sseLoop_drained (n : Nat) :
    ∀ events : List PriceUpdate,
      Handlers.handleSSE.loop (fun _ => false) 0 (List.replicate n SseCase.receive)
          drainedService events
        = some (drainedService, events ++ List.replicate n PriceUpdate.zero) := by
  induction n with
  | zero => intro events; simp [Handlers.handleSSE.loop]
  | succ n ih =>
    intro events
    have hrc : drainedService.receive 0 = some (Recv.closed, drainedService) := by decide
    simp only [List.replicate_succ, Handlers.handleSSE.loop, hrc, Option.some_bind,
      receivedPrice]
    rw [if_neg (by simp), ih]
    simp

theorem wsLoop_drained (n : Nat) :
    ∀ events : List PriceUpdate,
      Handlers.handleWebSocket.loop (fun _ => false) 0
          (List.replicate n (WsCase.receive false)) drainedService events
        = some (drainedService, events ++ List.replicate n PriceUpdate.zero) := by
  induction n with
  | zero => intro events; simp [Handlers.handleWebSocket.loop]
  | succ n ih =>
    intro events
    have hrc : drainedService.receive 0 = some (Recv.closed, drainedService) := by decide
    simp only [List.replicate_succ, Handlers.handleWebSocket.loop, hrc, Option.some_bind,
      receivedPrice]
    rw [if_neg (by simp), if_neg (by simp), ih]
    simp

/-- Claim C21, which the code does not meet: a subscriber of a new service with buffer
size 1 is evicted by the second of two broadcasts; its queue then is closed and holds the
first sample.  The loops of `handleSSE` and `handleWebSocket` write that sample and then,
with the queue closed and drained, write one more price event per iteration, each for the
zero `PriceUpdate`, which was never passed to `broadcastPrice`; this goes on for any
number `n` of iterations until the client goes away. -/
theorem consumer_loops_write_after_close :
    (NewPriceService envBufferOne storageTwo).run
        [ServiceOp.subscribe, ServiceOp.broadcast (btc 1 100), ServiceOp.broadcast (btc 2 101)]
      = some (evictedService, [0]) ∧
    Handlers.handleSSE.loop (fun _ => false) 0
        [SseCase.receive, SseCase.receive, SseCase.receive, SseCase.notify] evictedService []
      = some (drainedService, [btc 1 100, PriceUpdate.zero, PriceUpdate.zero]) ∧
    Handlers.handleWebSocket.loop (fun _ => false) 0
        [WsCase.receive false, WsCase.receive false, WsCase.receive false, WsCase.done]
        evictedService []
      = some (drainedService, [btc 1 100, PriceUpdate.zero, PriceUpdate.zero]) ∧
    PriceUpdate.zero ∉ broadcastSamples
      [ServiceOp.subscribe, ServiceOp.broadcast (btc 1 100), ServiceOp.broadcast (btc 2 101)] ∧
    (∀ n : Nat,
      Handlers.handleSSE.loop (fun _ => false) 0 (List.replicate n SseCase.receive)
          drainedService []
        = some (drainedService, List.replicate n PriceUpdate.zero)) ∧
    (∀ n : Nat,
      Handlers.handleWebSocket.loop (fun _ => false) 0
          (List.replicate n (WsCase.receive false)) drainedService []
        = some (drainedService, List.replicate n PriceUpdate.zero)) :=
  ⟨by decide, by decide, by decide, by decide,
    fun n => by simpa using sseLoop_drained n [],
    fun n => by simpa using wsLoop_drained n []⟩
